import Mathlib

/-!
Verification development for the clang offload bundler core
(`clang/lib/Driver/OffloadBundler.cpp`).

File contents and C++ strings are modelled as byte lists (`Bytes := List Nat`),
machine integers as `Nat` with explicit `% 2^64` where the C++ `uint64_t` /
`size_t` arithmetic can wrap.  External collaborators that are not part of the
source file under study (the LLVM triple parser, the CUDA architecture
enumeration, `clang::isCompatibleTargetID`, `llvm::StringMap`, the object-file
and archive readers and `llvm-objcopy`) are modelled from the specification and
are marked as such in their doc comments.
-/

namespace OffloadBundler

/-- Byte strings: file contents, triples, target names, error payloads. -/
abbrev Bytes := List Nat

/-- Bytes of a Lean string literal (ASCII code points). -/
def strBytes (s : String) : Bytes := s.data.map Char.toNat

/-- The magic string `__CLANG_OFFLOAD_BUNDLE__` (24 bytes). -/
def magicStr : Bytes := strBytes "__CLANG_OFFLOAD_BUNDLE__"

/-- `size_t` npos, as used by `StringRef::find` on failure. -/
def NPOS : Nat := 2 ^ 64 - 1

/-- First position `≥ start` at which `pat` occurs in `h`; models
`StringRef::find(pat, start)` returning npos as `none`. -/
def findIn : Bytes → Bytes → Option Nat
  | h, pat =>
    if (h.take pat.length) = pat then some 0
    else
      match h with
      | [] => none
      | _ :: t => (findIn t pat).map (· + 1)

/-- `StringRef::find(pat, start)` (absolute position form). -/
def findFrom (h pat : Bytes) (start : Nat) : Option Nat :=
  (findIn (h.drop start) pat).map (· + start)

/-- `findFrom` collapsed to the raw `size_t` value (npos on failure),
for modelling the unchecked arithmetic in the source. -/
def findRaw (h pat : Bytes) (start : Nat) : Nat :=
  (findFrom h pat start).getD NPOS

/-- Little-endian byte decomposition, `k` bytes of `v`. -/
def leBytes : Nat → Nat → Bytes
  | 0, _ => []
  | k + 1, v => v % 256 :: leBytes k (v / 256)

/-- Recompose a little-endian byte list into an integer. -/
def readLE : Bytes → Nat
  | [] => 0
  | b :: t => b + 256 * readLE t

/-- Models `llvm::support::endian::read64le(Buffer.data() + pos)`; the
`% 2^64` reflects that real buffer bytes are below 256, so an 8-byte read
is always below `2^64`. -/
def read64 (fc : Bytes) (pos : Nat) : Nat :=
  readLE ((fc.drop pos).take 8) % 2 ^ 64

/-- Models `Write8byteIntegerToBuffer` (little-endian `uint64_t`). -/
def le64 (v : Nat) : Bytes := leBytes 8 v

/-- Models `llvm::alignTo(Value, Align)` for `Align > 0`. -/
def alignTo (v a : Nat) : Nat := (v + a - 1) / a * a

/-- Models a `seek(off)` followed by `write(d)` on a `raw_fd_ostream`.  A
zero-byte write performs no I/O, so seeking past EOF and writing nothing
leaves the file unchanged (POSIX only materializes the gap when bytes are
actually written).  A non-empty write past EOF zero-fills the gap, then `d`
overwrites from `off`. -/
def fileWrite (f : Bytes) (off : Nat) (d : Bytes) : Bytes :=
  if d = [] then f
  else (f.take off ++ List.replicate (off - f.length) 0) ++ d ++ f.drop (off + d.length)

/-- Models `StringRef::split(char)`: pair split on the first occurrence of
byte `c`; when `c` does not occur, the pair is `(s, "")`. -/
def splitFirst (s : Bytes) (c : Nat) : Bytes × Bytes :=
  match findIn s [c] with
  | none => (s, [])
  | some i => (s.take i, s.drop (i + 1))

/-- Models `StringRef::rsplit(char)`: pair split on the last occurrence of
byte `c`; when `c` does not occur, the pair is `(s, "")`. -/
def rsplitLast (s : Bytes) (c : Nat) : Bytes × Bytes :=
  match findIn s.reverse [c] with
  | none => (s, [])
  | some j => (s.take (s.length - 1 - j), s.drop (s.length - j))

/-- Split a byte string on every occurrence of byte `c` (fuel-driven; the
fuel `s.length + 1` always suffices since each occurrence consumes bytes). -/
def splitAllF (c : Nat) : Nat → Bytes → List Bytes
  | 0, s => [s]
  | fuel + 1, s =>
    match findIn s [c] with
    | none => [s]
    | some i => s.take i :: splitAllF c fuel (s.drop (i + 1))

/-- Split a byte string on every occurrence of byte `c`. -/
def splitAll (s : Bytes) (c : Nat) : List Bytes := splitAllF c (s.length + 1) s

/-- Modelled from the spec: `llvm::Triple` (the triple parser is an external
collaborator, not part of the source file under study).  Per spec section 3,
a triple is a canonical architecture-vendor-os-environment 4-tuple whose
environment component is always materialized and may be the empty string. -/
structure Triple where
  arch : Bytes
  vendor : Bytes
  os : Bytes
  env : Bytes
deriving DecidableEq

/-- Modelled from the spec: parsing a triple string splits it into the four
components on `-`; everything after the third `-` is the environment. -/
def parseTriple (s : Bytes) : Triple :=
  let p1 := splitFirst s 45
  let p2 := splitFirst p1.2 45
  let p3 := splitFirst p2.2 45
  ⟨p1.1, p2.1, p3.1, p3.2⟩

/-- Modelled from the spec: `llvm::Triple::isCompatibleWith`, described by the
spec as architecture equivalence plus the triple library's own compatibility
relation; modelled as component-wise equality of the canonicalized 4-tuples. -/
def tripleCompatible (a b : Triple) : Bool := a = b

/-- Modelled from the spec: `clang::StringToCudaArch` (the CUDA/AMD GPU
architecture enumeration is an external collaborator).  The spec's examples
use NVIDIA `sm_<n>` and AMD `gfx<n>` processors, so a byte string is a known
GPU architecture iff it extends one of those two prefixes. -/
def cudaArchKnown (s : Bytes) : Bool :=
  (decide (s.take 3 = strBytes "sm_") || decide (s.take 3 = strBytes "gfx"))
    && decide (3 < s.length)

/-- Models `OffloadTargetInfo`: an offload kind, a canonicalized triple and a
possibly empty GPU target-ID suffix. -/
structure OffloadTargetInfo where
  offloadKind : Bytes
  triple : Triple
  targetID : Bytes
deriving DecidableEq

/-- Models the `OffloadTargetInfo` constructor: split the target string on the
first `:`; if the tail after the last `-` of the head names a known GPU
architecture, the head up to that `-` is `kind-triple` and the target ID is
the substring of the whole target starting at the first occurrence of that
architecture name; otherwise the whole head is `kind-triple` and the target
ID is empty.  The triple is re-canonicalized with all four components. -/
def mkOffloadTargetInfo (target : Bytes) : OffloadTargetInfo :=
  let targetFeatures := splitFirst target 58
  let tripleOrGPU := rsplitLast targetFeatures.1 45
  if cudaArchKnown tripleOrGPU.2 then
    let kindTriple := splitFirst tripleOrGPU.1 45
    { offloadKind := kindTriple.1
      triple := parseTriple kindTriple.2
      targetID := target.drop ((findIn target tripleOrGPU.2).getD target.length) }
  else
    let kindTriple := splitFirst targetFeatures.1 45
    { offloadKind := kindTriple.1
      triple := parseTriple kindTriple.2
      targetID := [] }

/-- Models `OffloadTargetInfo::hasHostKind`. -/
def hasHostKind (i : OffloadTargetInfo) : Bool := i.offloadKind = strBytes "host"

/-- ASCII lower-casing of one byte, for `starts_with_insensitive`. -/
def lowerByte (b : Nat) : Nat := if 65 ≤ b ∧ b ≤ 90 then b + 32 else b

/-- Models `StringRef::starts_with_insensitive`. -/
def startsWithInsensitive (s p : Bytes) : Bool :=
  (s.take p.length).map lowerByte = p.map lowerByte

/-- Models `OffloadTargetInfo::isOffloadKindCompatible`; the member reads
`BundlerConfig.HipOpenmpCompatible`, passed here as the first argument. -/
def isOffloadKindCompatible (hipOpenmpCompatible : Bool) (offloadKind targetOffloadKind : Bytes) :
    Bool :=
  if offloadKind = targetOffloadKind then true
  else if hipOpenmpCompatible then
    (startsWithInsensitive offloadKind (strBytes "hip")
        && decide (targetOffloadKind = strBytes "openmp"))
      || (decide (offloadKind = strBytes "openmp")
        && startsWithInsensitive targetOffloadKind (strBytes "hip"))
  else false

/-- Models `OffloadTargetInfo::operator==`. -/
def otiEq (a b : OffloadTargetInfo) : Bool :=
  decide (a.offloadKind = b.offloadKind) && tripleCompatible a.triple b.triple
    && decide (a.targetID = b.targetID)

/-- Sign of a GPU feature: bare (don't-care), `+` (on) or `-` (off). -/
inductive FeatSign where
  | bare
  | on
  | off
deriving DecidableEq

/-- Modelled from the spec: one `<feat>±` element of a target-ID suffix. -/
def parseFeature (f : Bytes) : Bytes × FeatSign :=
  match f.getLast? with
  | some 43 => (f.dropLast, .on)
  | some 45 => (f.dropLast, .off)
  | _ => (f, .bare)

/-- Modelled from the spec: a target ID `<proc>[:feat±]...` parsed into an
optional processor and its feature list; an empty target ID has no processor. -/
def parseTargetID (s : Bytes) : Option Bytes × List (Bytes × FeatSign) :=
  match splitAll s 58 with
  | [] => (none, [])
  | p :: fs => (if p = [] && fs = [] then none else some p, fs.map parseFeature)

/-- Modelled from the spec: `clang::isCompatibleTargetID` (clang/Basic/TargetID
is an external collaborator).  Per spec section 4.1: bundle `a` satisfies
request `b` iff the processors are equal (missing on both sides matches) and
every feature mentioned in `b` is either matched by `a` with the same sign or
carries the don't-care sign in `b`. -/
def isCompatibleTargetID (a b : Bytes) : Bool :=
  let pa := parseTargetID a
  let pb := parseTargetID b
  decide (pa.1 = pb.1)
    && pb.2.all fun f => f.2 = FeatSign.bare || pa.2.contains f

/-- Models `isCodeObjectCompatible(CodeObjectInfo, TargetInfo)`; the config's
`HipOpenmpCompatible` flag is passed explicitly. -/
def isCodeObjectCompatible (hipOpenmpCompatible : Bool)
    (codeObjectInfo targetInfo : OffloadTargetInfo) : Bool :=
  if otiEq codeObjectInfo targetInfo then true
  else if !(isOffloadKindCompatible hipOpenmpCompatible codeObjectInfo.offloadKind
        targetInfo.offloadKind
      && tripleCompatible codeObjectInfo.triple targetInfo.triple) then false
  else if !(isCompatibleTargetID codeObjectInfo.targetID targetInfo.targetID) then false
  else true

/-- Error values surfaced by the bundler operations.  The source builds
message strings; the model carries the distinguishing data instead. -/
inductive ErrKind where
  | invalidFileType (ft : String)
  | cantFindBundles (sortedTargets : List Bytes)
  | cantFindHostBundle
  | noCompatibleCodeObject (target : Bytes)
deriving DecidableEq

/-- Outcome of a modelled operation: success, a surfaced `llvm::Error`, an
assertion failure / undefined behaviour, or fuel exhaustion of the model's
loop bound (never reached in the proofs below). -/
inductive Res (α : Type) where
  | ok (a : α)
  | err (e : ErrKind)
  | ub
  | div
deriving DecidableEq

/-- Models `OffloadBundlerConfig` (the fields the core operations read).
`hostInputIndex = none` models the `~0u` sentinel. -/
structure Config where
  allowMissingBundles : Bool
  allowNoHost : Bool
  hipOpenmpCompatible : Bool
  hostInputIndex : Option Nat
  filesType : String
  bundleAlignment : Nat
  targetNames : List Bytes
  outputFileNames : List Bytes

/-- Modelled from the spec: `llvm::StringMap` insertion (the hash map is an
external collaborator).  Iteration order is modelled as insertion order,
consistently with the spec's ordering guarantees (spec section 8, properties
3 and 5); inserting an existing key updates it in place. -/
def smapInsert {β : Type} (m : List (Bytes × β)) (k : Bytes) (v : β) : List (Bytes × β) :=
  if m.any (fun e => decide (e.1 = k)) then
    m.map fun e => if e.1 = k then (k, v) else e
  else m ++ [(k, v)]

/-- Build a string map from key/value pairs by repeated insertion. -/
def buildSMap {β : Type} (pairs : List (Bytes × β)) : List (Bytes × β) :=
  pairs.foldl (fun m p => smapInsert m p.1 p.2) []

/-- Strict lexicographic byte order, the order of `std::set<StringRef>`. -/
def lexLt : Bytes → Bytes → Bool
  | [], [] => false
  | [], _ :: _ => true
  | _ :: _, [] => false
  | a :: as, b :: bs => if a < b then true else if a = b then lexLt as bs else false

/-- Insert into a sorted duplicate-free list (models `std::set` insert). -/
def sortedInsertDedup (x : Bytes) : List Bytes → List Bytes
  | [] => [x]
  | y :: ys =>
    if x = y then y :: ys
    else if lexLt x y then x :: y :: ys
    else y :: sortedInsertDedup x ys

/-- Models collecting strings into a `std::set<StringRef>` and iterating it. -/
def sortDedup (l : List Bytes) : List Bytes :=
  l.foldl (fun acc x => sortedInsertDedup x acc) []

namespace TextFileHandler

/-- Models `BundleStartString`: `"\n" + Comment + " " MAGIC "__START__ "`
(note: the adjacent C string literals concatenate with no separator between
the magic and `__START__`, and a single space after the comment). -/
def bundleStartString (comment : Bytes) : Bytes :=
  10 :: comment ++ strBytes " __CLANG_OFFLOAD_BUNDLE____START__ "

/-- Models `BundleEndString`: `"\n" + Comment + " " MAGIC "__END__ "`. -/
def bundleEndString (comment : Bytes) : Bytes :=
  10 :: comment ++ strBytes " __CLANG_OFFLOAD_BUNDLE____END__ "

/-- Models `TextFileHandler::ReadBundleStart`: find the start marker from
`rc`, then the newline closing the triple; returns the triple (or `none` at
end of bundles) and the updated `ReadChars`. -/
def ReadBundleStart (comment fc : Bytes) (rc : Nat) : Option Bytes × Nat :=
  match findFrom fc (bundleStartString comment) rc with
  | none => (none, NPOS)
  | some pos =>
    let tripleStart := pos + (bundleStartString comment).length
    match findFrom fc [10] tripleStart with
    | none => (none, NPOS)
    | some tripleEnd =>
      (some ((fc.drop tripleStart).take (tripleEnd - tripleStart)), tripleEnd + 1)

/-- The length `BundleEnd - BundleStart` that `TextFileHandler::ReadBundle`
passes to the `StringRef` constructor; when the end marker is missing this is
`npos - ReadChars` (the source performs this arithmetic unchecked). -/
def readBundleAccessLen (comment fc : Bytes) (rc : Nat) : Nat :=
  findRaw fc (bundleEndString comment) rc - rc

/-- Models `TextFileHandler::ReadBundle`: emit the bytes from `ReadChars` to
the end marker and leave `ReadChars` at the marker.  The emitted bytes are
clamped to the buffer here; `readBundleAccessLen` records the unclamped
length the source actually uses. -/
def ReadBundle (comment fc : Bytes) (rc : Nat) : Bytes × Nat :=
  let bundleEnd := findRaw fc (bundleEndString comment) rc
  ((fc.drop rc).take (bundleEnd - rc), bundleEnd)

/-- Models `TextFileHandler::ReadBundleEnd` (`none` = failure of the
`FC[ReadChars] == '\n'` assertion, an out-of-bounds or non-newline read). -/
def ReadBundleEnd (fc : Bytes) (rc : Nat) : Option Nat :=
  if rc < fc.length ∧ fc.getD rc 0 = 10 then
    match findFrom fc [10] (rc + 1) with
    | some e => some (e + 1)
    | none => some NPOS
  else none

/-- Models `TextFileHandler::listBundleIDsCallback`: skip to the end marker,
then past it via `ReadBundleEnd`. -/
def listCallback (comment fc : Bytes) (rc : Nat) : Option Nat :=
  ReadBundleEnd fc (findRaw fc (bundleEndString comment) rc)

/-- The bytes emitted for one bundle by `WriteBundleStart` + `WriteBundle` +
`WriteBundleEnd`. -/
def bundleBlock (comment target payload : Bytes) : Bytes :=
  bundleStartString comment ++ target ++ [10]
    ++ payload
    ++ bundleEndString comment ++ target ++ [10]

/-- The text container file produced by bundling `pairs` (target, payload)
in order; `WriteHeader` writes nothing for text containers. -/
def mkTextFile (comment : Bytes) (pairs : List (Bytes × Bytes)) : Bytes :=
  (pairs.map fun p => bundleBlock comment p.1 p.2).flatten

end TextFileHandler

namespace BinaryFileHandler

/-- The bundle index built by `ReadHeader`: `(triple, size, offset)` records
in insertion order, and whether `NextBundleInfo` was initialized (it is
assigned only when the header loop runs to completion). -/
structure HeaderInfo where
  bundles : List (Bytes × Nat × Nat)
  nextInit : Bool
deriving DecidableEq

/-- Models `BundlesInfo.contains(Triple)`. -/
def containsKey (l : List (Bytes × Nat × Nat)) (k : Bytes) : Bool :=
  l.any fun e => decide (e.1 = k)

/-- Models the per-record loop of `BinaryFileHandler::ReadHeader`: reads
offset, size, triple size and triple with bounds checks (each early return
keeps the records accumulated so far and leaves `NextBundleInfo`
uninitialized), validates `Offset != 0 && Offset + Size <= FC.size()`
(with `size_t` wraparound on the additions), and goes abnormal (`none`) in
the two cases the source does not return from: when `ReadChars + TripleSize`
wraps past `2^64` so the (wrapped) bounds check passes and, the offset check
also passing, the `StringRef` of the unwrapped huge length is hashed in
`BundlesInfo` — an out-of-bounds read, undefined behaviour — and on a
duplicate triple (the assertion).  The constructed-but-unread `StringRef`
itself is harmless, so a wrapping record whose offset check fails still
returns success, as in the source. -/
def parseRecs (fc : Bytes) : Nat → Nat → List (Bytes × Nat × Nat) →
    Option (List (Bytes × Nat × Nat) × Bool)
  | _, 0, acc => some (acc, true)
  | pos, n + 1, acc =>
    if pos + 8 > fc.length then some (acc, false)
    else
      let off := read64 fc pos
      if pos + 16 > fc.length then some (acc, false)
      else
        let size := read64 fc (pos + 8)
        if pos + 24 > fc.length then some (acc, false)
        else
          let tsz := read64 fc (pos + 16)
          if (pos + 24 + tsz) % 2 ^ 64 > fc.length then some (acc, false)
          else
            let t := (fc.drop (pos + 24)).take tsz
            if off = 0 ∨ (off + size) % 2 ^ 64 > fc.length then some (acc, false)
            else if pos + 24 + tsz ≥ 2 ^ 64 then none
            else if containsKey acc t then none
            else parseRecs fc ((pos + 24 + tsz) % 2 ^ 64) n (acc ++ [(t, size, off)])

/-- Models `BinaryFileHandler::ReadHeader` (`none` = duplicate-triple
assertion).  Every other path returns `Error::success()`; the early returns
before the record loop leave the map empty and `NextBundleInfo`
uninitialized. -/
def ReadHeader (fc : Bytes) : Option HeaderInfo :=
  if 24 > fc.length then some ⟨[], false⟩
  else if fc.take 24 ≠ magicStr then some ⟨[], false⟩
  else if 24 + 8 > fc.length then some ⟨[], false⟩
  else
    match parseRecs fc 32 (read64 fc 24) [] with
    | none => none
    | some (recs, completed) => some ⟨recs, completed⟩

/-- Models `HeaderSize` before the record loop of `WriteHeader`:
magic + bundle count + three 8-byte fields and the triple per target. -/
def headerBaseSize (targets : List Bytes) : Nat :=
  24 + 8 + (targets.map fun t => 24 + t.length).sum

/-- The `(offset, size)` pairs committed by `WriteHeader`'s loop: the running
cursor is aligned to `BundleAlignment` before each record and advanced by the
payload size after it. -/
def offsetsFrom (a : Nat) : Nat → List Nat → List (Nat × Nat)
  | _, [] => []
  | cursor, s :: ss =>
    let o := alignTo cursor a
    (o, s) :: offsetsFrom a (o + s) ss

/-- Offsets and sizes of the bundles of a binary container produced for
`pairs` (target, payload). -/
def bundleOffsets (pairs : List (Bytes × Bytes)) (a : Nat) : List (Nat × Nat) :=
  offsetsFrom a (headerBaseSize (pairs.map Prod.fst)) (pairs.map fun p => p.2.length)

/-- The header bytes emitted by `WriteHeader`: magic, bundle count, then one
`(offset, size, triple length, triple)` record per target. -/
def headerBytes (pairs : List (Bytes × Bytes)) (a : Nat) : Bytes :=
  magicStr ++ le64 pairs.length
    ++ ((pairs.zip (bundleOffsets pairs a)).map fun e =>
        le64 e.2.1 ++ le64 e.2.2 ++ le64 e.1.1.length ++ e.1.1).flatten

/-- The complete binary container file: header first, then each payload
written by `WriteBundle` seeking to its recorded offset. -/
def mkBinaryFile (pairs : List (Bytes × Bytes)) (a : Nat) : Bytes :=
  ((bundleOffsets pairs a).zip (pairs.map Prod.snd)).foldl
    (fun f e => fileWrite f e.1.1 e.2) (headerBytes pairs a)

end BinaryFileHandler

namespace ObjectFileHandler

/-- Models `ObjectFileHandler::ReadBundleStart`: scan forward for the next
section whose name starts with the magic prefix; the triple is the name after
the prefix. -/
def nextSection : List (Bytes × Bytes) → Option (Bytes × (Bytes × Bytes) × List (Bytes × Bytes))
  | [] => none
  | (name, content) :: rest =>
    if name.take 24 = magicStr then some (name.drop 24, (name, content), rest)
    else nextSection rest

/-- Models `ObjectFileHandler::ReadBundle`: the section contents, except that
a one-zero-byte section denotes the host bundle, whose payload is the whole
input object file. -/
def readBundleContent (fc content : Bytes) : Bytes :=
  if content = [0] then fc else content

end ObjectFileHandler

/-- The container chosen by `CreateFileHandler`. -/
inductive HandlerKind where
  | text (comment : Bytes)
  | binary
  | object
deriving DecidableEq

/-- Models `CreateFileHandler` / `CreateObjectFileHandler`.  Whether the first
input parses as a recognized object file (`createBinary`, an external
collaborator) is supplied as the oracle `firstInputIsObject`.  The `f95`
entry is compiled under `ENABLE_CLASSIC_FLANG`, which this repository's build
defines. -/
def CreateFileHandler (filesType : String) (firstInputIsObject : Bool) : Res HandlerKind :=
  if filesType = "i" then .ok (.text (strBytes "//"))
  else if filesType = "ii" then .ok (.text (strBytes "//"))
  else if filesType = "cui" then .ok (.text (strBytes "//"))
  else if filesType = "hipi" then .ok (.text (strBytes "//"))
  else if filesType = "d" then .ok (.text (strBytes "#"))
  else if filesType = "ll" then .ok (.text (strBytes ";"))
  else if filesType = "f95" then .ok (.text (strBytes "!"))
  else if filesType = "bc" then .ok .binary
  else if filesType = "s" then .ok (.text (strBytes "#"))
  else if filesType = "o" then .ok (if firstInputIsObject then .object else .binary)
  else if filesType = "a" then .ok (if firstInputIsObject then .object else .binary)
  else if filesType = "gch" then .ok .binary
  else if filesType = "ast" then .ok .binary
  else .err (.invalidFileType filesType)

/-- Read-side handler state: the text cursor, the binary bundle iterator
(`bad` marks the uninitialized-`NextBundleInfo` situation with a non-empty
map, whose next use is undefined behaviour), or the object section
iterator. -/
inductive HState where
  | text (comment : Bytes) (rc : Nat)
  | bin (bad : Bool) (rem : List (Bytes × Nat × Nat)) (cur : Option (Bytes × Nat × Nat))
  | obj (rem : List (Bytes × Bytes)) (cur : Option (Bytes × Bytes))
deriving DecidableEq

/-- State after `ReadHeader` for each handler; object sections come from the
spec-modelled object reader. -/
def initState (hk : HandlerKind) (fc : Bytes) (objSections : List (Bytes × Bytes)) :
    Res HState :=
  match hk with
  | .text c => .ok (.text c 0)
  | .binary =>
    match BinaryFileHandler.ReadHeader fc with
    | none => .ub
    | some h => .ok (.bin (!h.nextInit && !h.bundles.isEmpty)
        (if h.nextInit then h.bundles else []) none)
  | .object => .ok (.obj objSections none)

/-- Dispatching `ReadBundleStart`. -/
def hReadBundleStart (fc : Bytes) : HState → Res (Option Bytes × HState)
  | .text c rc =>
    let r := TextFileHandler.ReadBundleStart c fc rc
    .ok (r.1, .text c r.2)
  | .bin bad rem cur =>
    if bad then .ub
    else
      match rem with
      | [] => .ok (none, .bin bad [] cur)
      | e :: rest => .ok (some e.1, .bin bad rest (some e))
  | .obj rem cur =>
    match ObjectFileHandler.nextSection rem with
    | none => .ok (none, .obj [] cur)
    | some (t, sec, rest) => .ok (some t, .obj rest (some sec))

/-- Dispatching `ReadBundle`; the returned bytes are what the handler writes
to the output stream. -/
def hReadBundle (fc : Bytes) : HState → Res (Bytes × HState)
  | .text c rc =>
    let r := TextFileHandler.ReadBundle c fc rc
    .ok (r.1, .text c r.2)
  | .bin bad rem cur =>
    match cur with
    | none => .ub
    | some e => .ok ((fc.drop e.2.2).take e.2.1, .bin bad rem cur)
  | .obj rem cur =>
    match cur with
    | none => .ub
    | some sec => .ok (ObjectFileHandler.readBundleContent fc sec.2, .obj rem cur)

/-- Dispatching `ReadBundleEnd`. -/
def hReadBundleEnd (fc : Bytes) : HState → Res HState
  | .text c rc =>
    match TextFileHandler.ReadBundleEnd fc rc with
    | none => .ub
    | some rc2 => .ok (.text c rc2)
  | .bin bad rem cur =>
    match cur with
    | none => .ub
    | some _ => .ok (.bin bad rem cur)
  | .obj rem cur => .ok (.obj rem cur)

/-- Dispatching `listBundleIDsCallback` (a no-op except for text). -/
def hListCallback (fc : Bytes) : HState → Res HState
  | .text c rc =>
    match TextFileHandler.listCallback c fc rc with
    | none => .ub
    | some rc2 => .ok (.text c rc2)
  | st => .ok st

/-- Write events: `(output path, bytes written)` in the order the operation
opens and writes output files. -/
abbrev Events := List (Bytes × Bytes)

/-- First worklist entry whose target is compatible with the bundle's triple,
in map iteration order (models the inner loop of `UnbundleFiles`). -/
def firstCompatible (hip : Bool) (wl : List (Bytes × Bytes)) (t : Bytes) :
    Option (Bytes × Bytes) :=
  wl.find? fun e =>
    isCodeObjectCompatible hip (mkOffloadTargetInfo t) (mkOffloadTargetInfo e.1)

/-- Models `Worklist.erase` of the matched entry. -/
def eraseKey (wl : List (Bytes × Bytes)) (k : Bytes) : List (Bytes × Bytes) :=
  wl.eraseP fun e => decide (e.1 = k)

/-- Models the read loop of `UnbundleFiles`: while the worklist is non-empty,
read the next bundle, extract it to the first compatible worklist entry (or
skip it), and track whether a host bundle was seen.  Returns the write events
and, on normal exit, the remaining worklist and the host flag. -/
def unbundleLoop (hip : Bool) (fc : Bytes) :
    Nat → HState → List (Bytes × Bytes) → Bool → Events →
    Events × Res (List (Bytes × Bytes) × Bool)
  | 0, _, _, _, evs => (evs, .div)
  | fuel + 1, st, wl, foundHost, evs =>
    if wl.isEmpty then (evs, .ok (wl, foundHost))
    else
      match hReadBundleStart fc st with
      | .err e => (evs, .err e)
      | .ub => (evs, .ub)
      | .div => (evs, .div)
      | .ok (none, _) => (evs, .ok (wl, foundHost))
      | .ok (some t, st1) =>
        if t.isEmpty then (evs, .ub)
        else
          match firstCompatible hip wl t with
          | none => unbundleLoop hip fc fuel st1 wl foundHost evs
          | some entry =>
            match hReadBundle fc st1 with
            | .err e => (evs, .err e)
            | .ub => (evs, .ub)
            | .div => (evs, .div)
            | .ok (payload, st2) =>
              match hReadBundleEnd fc st2 with
              | .err e => (evs ++ [(entry.2, payload)], .err e)
              | .ub => (evs ++ [(entry.2, payload)], .ub)
              | .div => (evs ++ [(entry.2, payload)], .div)
              | .ok st3 =>
                unbundleLoop hip fc fuel st3 (eraseKey wl entry.1)
                  (foundHost || hasHostKind (mkOffloadTargetInfo t))
                  (evs ++ [(entry.2, payload)])

/-- Models the post-loop steps of `UnbundleFiles` in source order: the
missing-bundle error, the no-bundles host fallback, the missing-host-bundle
error, and empty files for leftover targets. -/
def unbundlePost (cfg : Config) (fc : Bytes) (wl : List (Bytes × Bytes))
    (foundHost : Bool) (evs : Events) : Events × Res Unit :=
  if !cfg.allowMissingBundles && !wl.isEmpty then
    (evs, .err (.cantFindBundles (sortDedup (wl.map Prod.fst))))
  else if wl.length = cfg.targetNames.length then
    (evs ++ wl.map fun e =>
      (e.2, if hasHostKind (mkOffloadTargetInfo e.1) then fc else []), .ok ())
  else if !(foundHost || cfg.hostInputIndex.isNone || cfg.allowMissingBundles) then
    (evs, .err .cantFindHostBundle)
  else
    (evs ++ wl.map fun e => (e.2, ([] : Bytes)), .ok ())

/-- Models `OffloadBundler::UnbundleFiles` on input contents `fc`.  The
oracles `firstInputIsObject` and `objSections` stand for the external object
reader (`createBinary` / section iteration), modelled from the spec. -/
def UnbundleFiles (cfg : Config) (fc : Bytes) (firstInputIsObject : Bool)
    (objSections : List (Bytes × Bytes)) : Events × Res Unit :=
  match CreateFileHandler cfg.filesType firstInputIsObject with
  | .err e => ([], .err e)
  | .ub => ([], .ub)
  | .div => ([], .div)
  | .ok hk =>
    match initState hk fc objSections with
    | .err e => ([], .err e)
    | .ub => ([], .ub)
    | .div => ([], .div)
    | .ok st0 =>
      let wl := buildSMap (cfg.targetNames.zip cfg.outputFileNames)
      let fuel := 2 * fc.length + cfg.targetNames.length + objSections.length + 8
      match unbundleLoop cfg.hipOpenmpCompatible fc fuel st0 wl false [] with
      | (evs, .ok r) => unbundlePost cfg fc r.1 r.2 evs
      | (evs, .err e) => (evs, .err e)
      | (evs, .ub) => (evs, .ub)
      | (evs, .div) => (evs, .div)

/-- Output of `BundleFiles`: a byte file, or (for the object container) the
section list of the fat object produced through `llvm-objcopy`. -/
inductive BundOutput where
  | bytes (f : Bytes)
  | object (sections : List (Bytes × Bytes))
deriving DecidableEq

/-- Models `OffloadBundler::BundleFiles` with input contents `inputs` (one
per target, positionally).  For the object container, the `llvm-objcopy`
invocation is modelled from the spec: the produced fat object carries the
host object's own sections (`hostObjSections`, an oracle for the external
object reader) followed by one `<magic><target>` section per input, the
host's being a single zero byte. -/
def BundleFiles (cfg : Config) (inputs : List Bytes) (firstInputIsObject : Bool)
    (hostObjSections : List (Bytes × Bytes)) : Res BundOutput :=
  if !(cfg.hostInputIndex.isSome || cfg.allowNoHost) then .ub
  else if (if cfg.allowNoHost then 0 else cfg.hostInputIndex.getD 0) ≥ inputs.length then .ub
  else
    match CreateFileHandler cfg.filesType firstInputIsObject with
    | .err e => .err e
    | .ub => .ub
    | .div => .div
    | .ok hk =>
      if inputs.length < cfg.targetNames.length then .ub
      else
        match hk with
        | .text c => .ok (.bytes (TextFileHandler.mkTextFile c (cfg.targetNames.zip inputs)))
        | .binary =>
          .ok (.bytes (BinaryFileHandler.mkBinaryFile (cfg.targetNames.zip inputs)
            cfg.bundleAlignment))
        | .object =>
          if cfg.hostInputIndex.isNone then .ub
          else
            .ok (.object (hostObjSections ++
              (cfg.targetNames.zip inputs).enum.map fun e =>
                (magicStr ++ e.2.1,
                  if cfg.hostInputIndex = some e.1 then [0] else e.2.2)))

/-- Models `FileHandler::listBundleIDs`'s loop: collect the bundle IDs
printed, running the per-handler callback after each. -/
def listLoop (fc : Bytes) : Nat → HState → List Bytes → Res (List Bytes)
  | 0, _, _ => .div
  | fuel + 1, st, acc =>
    match hReadBundleStart fc st with
    | .err e => .err e
    | .ub => .ub
    | .div => .div
    | .ok (none, _) => .ok acc
    | .ok (some t, st1) =>
      if t.isEmpty then .ub
      else
        match hListCallback fc st1 with
        | .err e => .err e
        | .ub => .ub
        | .div => .div
        | .ok st2 => listLoop fc fuel st2 (acc ++ [t])

/-- Models `OffloadBundler::ListBundleIDsInFile`: the printed bundle IDs, one
per line, as a list. -/
def ListBundleIDsInFile (cfg : Config) (fc : Bytes) (firstInputIsObject : Bool)
    (objSections : List (Bytes × Bytes)) : Res (List Bytes) :=
  match CreateFileHandler cfg.filesType firstInputIsObject with
  | .err e => .err e
  | .ub => .ub
  | .div => .div
  | .ok hk =>
    match initState hk fc objSections with
    | .err e => .err e
    | .ub => .ub
    | .div => .div
    | .ok st0 =>
      listLoop fc (2 * fc.length + objSections.length + 8) st0 []

/-- A payload is clean for a marker string when the marker does not occur in
`p ++ marker` strictly before position `p.length` (equivalently: reading the
payload back stops exactly at the marker written after it).  Implied by the
marker not occurring in the payload at all, since the markers do not overlap
themselves. -/
def markerClean (marker p : Bytes) : Prop :=
  ∀ i < p.length, ((p ++ marker).drop i).take marker.length ≠ marker

instance (marker p : Bytes) : Decidable (markerClean marker p) := by
  unfold markerClean
  infer_instance

/-- The value of the `HeaderSize` cursor after `WriteHeader`'s record loop:
starting from `c`, each record aligns the cursor and advances it by the
payload size.  Equals the length of the produced binary file. -/
def endCursor (a : Nat) : Nat → List Nat → Nat
  | c, [] => c
  | c, s :: ss => endCursor a (alignTo c a + s) ss

/-- The record loop of `BinaryFileHandler::ReadHeader` with the
duplicate-triple assertion compiled out (`NDEBUG` semantics): the total
reference used to phrase the hypotheses of C10.  The second component is the
`NextBundleInfo`-assigned flag; the third is set (and the loop stopped) when
`ReadChars + TripleSize` wraps past `2^64` with both the wrapped bounds check
and the offset check passing — the point at which the source performs its
out-of-bounds `StringRef` read. -/
def parseRecsTotal (fc : Bytes) : Nat → Nat → List (Bytes × Nat × Nat) →
    List (Bytes × Nat × Nat) × Bool × Bool
  | _, 0, acc => (acc, true, false)
  | pos, n + 1, acc =>
    if pos + 8 > fc.length then (acc, false, false)
    else
      let off := read64 fc pos
      if pos + 16 > fc.length then (acc, false, false)
      else
        let size := read64 fc (pos + 8)
        if pos + 24 > fc.length then (acc, false, false)
        else
          let tsz := read64 fc (pos + 16)
          if (pos + 24 + tsz) % 2 ^ 64 > fc.length then (acc, false, false)
          else
            let t := (fc.drop (pos + 24)).take tsz
            if off = 0 ∨ (off + size) % 2 ^ 64 > fc.length then (acc, false, false)
            else if pos + 24 + tsz ≥ 2 ^ 64 then (acc, false, true)
            else parseRecsTotal fc ((pos + 24 + tsz) % 2 ^ 64) n (acc ++ [(t, size, off)])

/-- The records a binary header describes, ignoring the duplicate-triple
assertion (empty when the magic or the top-level bounds checks fail). -/
def headerRecsTotal (fc : Bytes) : List (Bytes × Nat × Nat) :=
  if 24 > fc.length then []
  else if fc.take 24 ≠ magicStr then []
  else if 24 + 8 > fc.length then []
  else (parseRecsTotal fc 32 (read64 fc 24) []).1

/-- Whether parsing the binary header reaches the wrapping
`ReadChars + TripleSize` situation, where the source reads out of bounds. -/
def headerWrapped (fc : Bytes) : Bool :=
  if 24 > fc.length then false
  else if fc.take 24 ≠ magicStr then false
  else if 24 + 8 > fc.length then false
  else (parseRecsTotal fc 32 (read64 fc 24) []).2.2

/-- The `(triple, size, offset)` records a binary container produced for
`pairs` describes (the index `ReadHeader` rebuilds). -/
def recsOf (pairs : List (Bytes × Bytes)) (a : Nat) : List (Bytes × Nat × Nat) :=
  (pairs.zip (BinaryFileHandler.bundleOffsets pairs a)).map fun e =>
    (e.1.1, e.2.2, e.2.1)

/-- Serialized form of a record list, as `WriteHeader` emits it after the
bundle count. -/
def recsBytes (recs : List (Bytes × Nat × Nat)) : Bytes :=
  (recs.map fun r => le64 r.2.2 ++ le64 r.2.1 ++ le64 r.1.length ++ r.1).flatten

/-- The bytes a binary container holds after the header: for each payload,
the zero padding `WriteBundle`'s seek introduces up to the aligned offset,
then the payload itself (`c` is the cursor the header loop left). -/
def binTail (a : Nat) : Nat → List Bytes → Bytes
  | _, [] => []
  | c, p :: ps =>
    List.replicate (alignTo c a - c) 0 ++ p ++ binTail a (alignTo c a + p.length) ps

/-- Models the final write-out loop of `OffloadBundler::UnbundleArchive`
(lines after all archive members are processed): for each requested target in
order, write an archive with its accumulated members; a memberless target is
an error when missing bundles are not allowed, and an empty archive
otherwise.  Returns the `(file name, members)` write events and the outcome;
an error return leaves the remaining targets unwritten. -/
def writeTargetArchives {α : Type} (targets : List Bytes)
    (outMap : List (Bytes × Bytes)) (archMap : List (Bytes × List α))
    (allowMissing : Bool) : List (Bytes × List α) × Res Unit :=
  match targets with
  | [] => ([], .ok ())
  | t :: ts =>
    let fileName := ((outMap.find? fun e => decide (e.1 = t)).map Prod.snd).getD []
    match archMap.find? fun e => decide (e.1 = t) with
    | some e =>
      let r := writeTargetArchives ts outMap archMap allowMissing
      ((fileName, e.2) :: r.1, r.2)
    | none =>
      if !allowMissing then ([], .err (.noCompatibleCodeObject t))
      else
        let r := writeTargetArchives ts outMap archMap allowMissing
        ((fileName, ([] : List α)) :: r.1, r.2)

theorem leBytes_length (k v : Nat) : (leBytes k v).length = k := by
  induction k generalizing v with
  | zero => rfl
  | succ k ih => simp [leBytes, ih]

theorem readLE_leBytes (k v : Nat) : readLE (leBytes k v) = v % 256 ^ k := by
  induction k generalizing v with
  | zero => simp [leBytes, readLE, Nat.mod_one]
  | succ k ih =>
      simp only [leBytes, readLE, ih]
      rw [Nat.pow_succ, Nat.mul_comm (256 ^ k) 256, Nat.mod_mul]

theorem le64_length (v : Nat) : (le64 v).length = 8 := leBytes_length 8 v

theorem readLE_le64 (v : Nat) (h : v < 2 ^ 64) : readLE (le64 v) = v := by
  have : (256 : Nat) ^ 8 = 2 ^ 64 := by norm_num
  rw [le64, readLE_leBytes, this, Nat.mod_eq_of_lt h]

theorem findIn_some_matches (pat : Bytes) :
    ∀ (h : Bytes) (i : Nat), findIn h pat = some i → (h.drop i).take pat.length = pat := by
  intro h
  induction h with
  | nil =>
      intro i hf
      unfold findIn at hf
      split at hf
      · cases hf; rw [List.drop_zero]; assumption
      · cases hf
  | cons a t ih =>
      intro i hf
      unfold findIn at hf
      split at hf
      · cases hf; rw [List.drop_zero]; assumption
      · obtain ⟨j, hj, rfl⟩ := Option.map_eq_some'.mp hf
        simpa using ih j hj

theorem findIn_some_le (pat : Bytes) :
    ∀ (h : Bytes) (i : Nat), findIn h pat = some i → i ≤ h.length := by
  intro h
  induction h with
  | nil =>
      intro i hf
      unfold findIn at hf
      split at hf
      · cases hf; exact Nat.zero_le _
      · cases hf
  | cons a t ih =>
      intro i hf
      unfold findIn at hf
      split at hf
      · cases hf; exact Nat.zero_le _
      · obtain ⟨j, hj, rfl⟩ := Option.map_eq_some'.mp hf
        simpa using ih j hj

theorem findIn_some_bound (h pat : Bytes) (i : Nat) (hf : findIn h pat = some i) :
    i + pat.length ≤ h.length := by
  have hm := findIn_some_matches pat h i hf
  have hle := findIn_some_le pat h i hf
  have hlen := congrArg List.length hm
  simp [List.length_take, List.length_drop] at hlen
  omega

theorem alignTo_le (v a : Nat) (ha : 0 < a) : v ≤ alignTo v a := by
  unfold alignTo
  rw [Nat.mul_comm]
  have h := Nat.div_add_mod (v + a - 1) a
  have hmod : (v + a - 1) % a < a := Nat.mod_lt _ ha
  omega

theorem alignTo_dvd (v a : Nat) : a ∣ alignTo v a := ⟨_, (Nat.mul_comm _ _)⟩

theorem alignTo_idem (v a : Nat) (ha : 0 < a) (h : a ∣ v) : alignTo v a = v := by
  obtain ⟨c, rfl⟩ := h
  unfold alignTo
  have h1 : (a * c + a - 1) / a = c := by
    rw [show a * c + a - 1 = a * c + (a - 1) by omega, Nat.mul_add_div ha,
      Nat.div_eq_of_lt (by omega), Nat.add_zero]
  rw [h1, Nat.mul_comm]


theorem offsetsFrom_align (a : Nat) (ss : List Nat) :
    ∀ (c : Nat), ∀ e ∈ BinaryFileHandler.offsetsFrom a c ss, a ∣ e.1 := by
  induction ss with
  | nil => intro c e he; simp [BinaryFileHandler.offsetsFrom] at he
  | cons s ss ih =>
      intro c e he
      simp only [BinaryFileHandler.offsetsFrom, List.mem_cons] at he
      rcases he with rfl | he
      · exact alignTo_dvd _ _
      · exact ih _ e he

theorem offsetsFrom_lb (a : Nat) (ha : 0 < a) (ss : List Nat) :
    ∀ (c : Nat), ∀ e ∈ BinaryFileHandler.offsetsFrom a c ss, c ≤ e.1 := by
  induction ss with
  | nil => intro c e he; simp [BinaryFileHandler.offsetsFrom] at he
  | cons s ss ih =>
      intro c e he
      simp only [BinaryFileHandler.offsetsFrom, List.mem_cons] at he
      rcases he with rfl | he
      · exact alignTo_le _ _ ha
      · have h1 := ih _ e he
        have h2 := alignTo_le c a ha
        omega

theorem offsetsFrom_chain (a : Nat) (ha : 0 < a) (ss : List Nat) :
    ∀ (c : Nat),
      List.Chain' (fun x y : Nat × Nat => x.1 + x.2 ≤ y.1)
        (BinaryFileHandler.offsetsFrom a c ss) := by
  induction ss with
  | nil => intro c; simp [BinaryFileHandler.offsetsFrom]
  | cons s ss ih =>
      intro c
      cases ss with
      | nil => simp [BinaryFileHandler.offsetsFrom]
      | cons s2 ss2 =>
          have h := ih (alignTo c a + s)
          simp only [BinaryFileHandler.offsetsFrom] at h ⊢
          rw [List.chain'_cons]
          exact ⟨alignTo_le _ _ ha, h⟩

theorem offsetsFrom_strict_chain (a : Nat) (ha : 0 < a) (ss : List Nat) :
    ∀ (c : Nat), (∀ s ∈ ss, 0 < s) →
      List.Chain' (fun x y : Nat × Nat => x.1 < y.1)
        (BinaryFileHandler.offsetsFrom a c ss) := by
  induction ss with
  | nil => intro c _; simp [BinaryFileHandler.offsetsFrom]
  | cons s ss ih =>
      intro c hpos
      cases ss with
      | nil => simp [BinaryFileHandler.offsetsFrom]
      | cons s2 ss2 =>
          have h := ih (alignTo c a + s) fun u hu => hpos u (List.mem_cons_of_mem _ hu)
          simp only [BinaryFileHandler.offsetsFrom] at h ⊢
          rw [List.chain'_cons]
          refine ⟨?_, h⟩
          have h1 := alignTo_le (alignTo c a + s) a ha
          have h2 : 0 < s := hpos s (List.mem_cons_self _ _)
          omega

theorem endCursor_ge (a : Nat) (ha : 0 < a) (ss : List Nat) :
    ∀ (c : Nat), c ≤ endCursor a c ss := by
  induction ss with
  | nil => intro c; simp [endCursor]
  | cons s ss ih =>
      intro c
      have h1 := ih (alignTo c a + s)
      have h2 := alignTo_le c a ha
      simp only [endCursor]
      omega

theorem offsetsFrom_within (a : Nat) (ha : 0 < a) (ss : List Nat) :
    ∀ (c : Nat), ∀ e ∈ BinaryFileHandler.offsetsFrom a c ss,
      e.1 + e.2 ≤ endCursor a c ss := by
  induction ss with
  | nil => intro c e he; simp [BinaryFileHandler.offsetsFrom] at he
  | cons s ss ih =>
      intro c e he
      simp only [BinaryFileHandler.offsetsFrom, List.mem_cons] at he
      simp only [endCursor]
      rcases he with rfl | he
      · exact endCursor_ge a ha ss _
      · exact ih _ e he

theorem offsetsFrom_length (a : Nat) (ss : List Nat) :
    ∀ (c : Nat), (BinaryFileHandler.offsetsFrom a c ss).length = ss.length := by
  induction ss with
  | nil => intro c; simp [BinaryFileHandler.offsetsFrom]
  | cons s ss ih => intro c; simp [BinaryFileHandler.offsetsFrom, ih]

theorem fileWrite_length_of_le (f : Bytes) (o : Nat) (d : Bytes) (h : f.length ≤ o)
    (hd : d ≠ []) :
    (fileWrite f o d).length = o + d.length := by
  unfold fileWrite
  rw [if_neg hd]
  simp only [List.length_append, List.length_take, List.length_replicate,
    List.length_drop]
  omega

theorem sum_zip_fst {α β : Type} (g : α → Nat) :
    ∀ (l₁ : List α) (l₂ : List β), l₁.length ≤ l₂.length →
      ((l₁.zip l₂).map fun e => g e.1).sum = (l₁.map g).sum := by
  intro l₁
  induction l₁ with
  | nil => intro l₂ _; simp
  | cons x xs ih =>
      intro l₂ hl
      cases l₂ with
      | nil => simp at hl
      | cons y ys =>
          simp only [List.zip_cons_cons, List.map_cons, List.sum_cons]
          rw [ih ys (by simpa using hl)]

theorem headerBytes_length (pairs : List (Bytes × Bytes)) (a : Nat) :
    (BinaryFileHandler.headerBytes pairs a).length
      = BinaryFileHandler.headerBaseSize (pairs.map Prod.fst) := by
  have hzlen : pairs.length ≤ (BinaryFileHandler.bundleOffsets pairs a).length := by
    rw [BinaryFileHandler.bundleOffsets, offsetsFrom_length, List.length_map]
  have hfun : ∀ e ∈ pairs.zip (BinaryFileHandler.bundleOffsets pairs a),
      (le64 e.2.1 ++ le64 e.2.2 ++ le64 e.1.1.length ++ e.1.1).length
        = 24 + e.1.1.length := by
    intro e _
    simp [le64_length]
    omega
  simp only [BinaryFileHandler.headerBytes, BinaryFileHandler.headerBaseSize,
    List.length_append, List.length_flatten, List.map_map]
  rw [show (magicStr.length : Nat) = 24 from by decide, le64_length]
  rw [show (List.length ∘ fun e : (Bytes × Bytes) × Nat × Nat =>
      le64 e.2.1 ++ le64 e.2.2 ++ le64 e.1.1.length ++ e.1.1)
      = fun e : (Bytes × Bytes) × Nat × Nat =>
        (le64 e.2.1 ++ le64 e.2.2 ++ le64 e.1.1.length ++ e.1.1).length from rfl]
  rw [List.map_congr_left hfun, sum_zip_fst (fun p : Bytes × Bytes => 24 + p.1.length)
    pairs _ hzlen]
  rfl

theorem foldl_fileWrite_length (a : Nat) (ha : 0 < a) :
    ∀ (ps : List Bytes) (c : Nat) (f : Bytes), f.length = c →
      (∀ p ∈ ps, p ≠ []) →
      (((BinaryFileHandler.offsetsFrom a c (ps.map List.length)).zip ps).foldl
          (fun g e => fileWrite g e.1.1 e.2) f).length
        = endCursor a c (ps.map List.length) := by
  intro ps
  induction ps with
  | nil => intro c f hf _; simpa [BinaryFileHandler.offsetsFrom, endCursor] using hf
  | cons p ps ih =>
      intro c f hf hne
      simp only [List.map_cons, BinaryFileHandler.offsetsFrom, List.zip_cons_cons,
        List.foldl_cons, endCursor]
      exact ih _ _ (fileWrite_length_of_le f _ p (hf ▸ alignTo_le c a ha)
          (hne p (List.mem_cons_self _ _)))
        (fun q hq => hne q (List.mem_cons_of_mem _ hq))

theorem mkBinaryFile_length (pairs : List (Bytes × Bytes)) (a : Nat) (ha : 0 < a)
    (hne : ∀ pr ∈ pairs, pr.2 ≠ []) :
    (BinaryFileHandler.mkBinaryFile pairs a).length
      = endCursor a (BinaryFileHandler.headerBaseSize (pairs.map Prod.fst))
          ((pairs.map Prod.snd).map List.length) := by
  have h := foldl_fileWrite_length a ha (pairs.map Prod.snd)
    (BinaryFileHandler.headerBaseSize (pairs.map Prod.fst))
    (BinaryFileHandler.headerBytes pairs a) (headerBytes_length pairs a)
    (by
      intro p hp
      obtain ⟨pr, hpr, rfl⟩ := List.mem_map.mp hp
      exact hne pr hpr)
  simpa [BinaryFileHandler.mkBinaryFile, BinaryFileHandler.bundleOffsets,
    List.map_map] using h

/-- C2 (amended): in every binary container produced with positive alignment,
every recorded offset is a multiple of the alignment and consecutive records
satisfy `offset + size ≤ next offset`, so offsets are non-decreasing; when
every payload is non-empty, the offsets are moreover strictly increasing and
every record's `offset + size` is at most the file size (an empty payload
breaks both: its record repeats the previous aligned offset, and its
zero-byte write does not extend the file to that offset). -/
theorem c2_binary_layout (pairs : List (Bytes × Bytes)) (a : Nat) (ha : 0 < a) :
    (∀ e ∈ BinaryFileHandler.bundleOffsets pairs a, a ∣ e.1) ∧
    List.Chain' (fun x y : Nat × Nat => x.1 + x.2 ≤ y.1)
      (BinaryFileHandler.bundleOffsets pairs a) ∧
    ((∀ p ∈ pairs, p.2 ≠ []) →
      List.Chain' (fun x y : Nat × Nat => x.1 < y.1)
        (BinaryFileHandler.bundleOffsets pairs a)) ∧
    ((∀ p ∈ pairs, p.2 ≠ []) →
      ∀ e ∈ BinaryFileHandler.bundleOffsets pairs a,
        e.1 + e.2 ≤ (BinaryFileHandler.mkBinaryFile pairs a).length) := by
  refine ⟨offsetsFrom_align a _ _, offsetsFrom_chain a ha _ _, ?_, ?_⟩
  · intro hne
    refine offsetsFrom_strict_chain a ha _ _ ?_
    intro s hs
    obtain ⟨p, hp, rfl⟩ := List.mem_map.mp hs
    have := hne p hp
    cases hcase : p.2 with
    | nil => exact absurd hcase this
    | cons x xs => simp [hcase]
  · intro hne e he
    rw [mkBinaryFile_length pairs a ha hne]
    have h := offsetsFrom_within a ha (pairs.map fun p => p.2.length)
      (BinaryFileHandler.headerBaseSize (pairs.map Prod.fst)) e
      (by simpa [BinaryFileHandler.bundleOffsets] using he)
    simpa [List.map_map, Function.comp] using h

/-- Witness for C2 at one non-empty bundle and alignment 4096. -/
theorem c2_witness :
    0 < (4096 : Nat) ∧
    ∀ e ∈ BinaryFileHandler.bundleOffsets [(strBytes "t1", [170])] 4096,
      (4096 : Nat) ∣ e.1 :=
  ⟨by decide, (c2_binary_layout [(strBytes "t1", [170])] 4096 (by decide)).1⟩

/-- C2 (counterexample): bundling two targets with empty payloads at
alignment 4096 records offset 4096 for both bundles — the offsets are not
strictly increasing — and the produced file is just the 84-byte header (the
zero-byte `WriteBundle` writes after a seek to 4096 do not extend it), so
`offset + size ≤ file size` also fails for those records. -/
theorem c2_counterexample :
    BundleFiles ⟨true, true, false, some 0, "bc", 4096,
        [strBytes "t1", strBytes "t2"], [strBytes "out"]⟩ [[], []] false []
      = .ok (.bytes (BinaryFileHandler.mkBinaryFile
          [(strBytes "t1", []), (strBytes "t2", [])] 4096)) ∧
    BinaryFileHandler.bundleOffsets [(strBytes "t1", []), (strBytes "t2", [])] 4096
      = [(4096, 0), (4096, 0)] ∧
    ¬((4096 : Nat) < 4096) ∧
    (BinaryFileHandler.mkBinaryFile [(strBytes "t1", []), (strBytes "t2", [])]
        4096).length = 84 ∧
    ¬(4096 + 0 ≤ 84) :=
  ⟨rfl, by decide, by decide, by decide, by decide⟩

theorem smapInsert_not_mem {β : Type} (m : List (Bytes × β)) (k : Bytes) (v : β)
    (h : k ∉ m.map Prod.fst) : smapInsert m k v = m ++ [(k, v)] := by
  unfold smapInsert
  rw [if_neg]
  simp only [List.any_eq_true, decide_eq_true_eq, not_exists]
  intro e he
  exact h (List.mem_map.mpr ⟨e, he.1, he.2⟩)

theorem buildSMap_go {β : Type} :
    ∀ (pairs m : List (Bytes × β)),
      (m.map Prod.fst ++ pairs.map Prod.fst).Nodup →
      pairs.foldl (fun acc p => smapInsert acc p.1 p.2) m = m ++ pairs := by
  intro pairs
  induction pairs with
  | nil => intro m _; simp
  | cons p ps ih =>
      intro m hnd
      simp only [List.map_cons] at hnd
      have hnotin : p.1 ∉ m.map Prod.fst := by
        have hp := List.perm_middle.nodup hnd
        intro hmem
        exact (List.nodup_cons.mp hp).1 (List.mem_append.mpr (Or.inl hmem))
      simp only [List.foldl_cons]
      rw [smapInsert_not_mem m p.1 p.2 hnotin]
      have hnd2 : ((m ++ [p]).map Prod.fst ++ ps.map Prod.fst).Nodup := by
        simp only [List.map_append, List.map_cons, List.map_nil, List.append_assoc,
          List.singleton_append]
        exact hnd
      rw [ih (m ++ [p]) hnd2]
      simp

theorem buildSMap_nodup {β : Type} (pairs : List (Bytes × β))
    (h : (pairs.map Prod.fst).Nodup) : buildSMap pairs = pairs := by
  have := buildSMap_go pairs [] (by simpa using h)
  simpa [buildSMap] using this

/-- C3 (amended): an unbundle of an input containing no recognized bundles
(the first `ReadBundleStart` reports none) returns success, creating an empty
output for every non-host requested target and a byte-identical copy of the
input for every host-kind requested target — provided `AllowMissingBundles`
is set; with it clear the operation instead fails with the missing-bundle
error before reaching the host fallback (see the counterexample). -/
theorem c3_no_bundles_host_fallback (cfg : Config) (fc : Bytes) (isObj : Bool)
    (secs : List (Bytes × Bytes)) (hk : HandlerKind) (st0 st1 : HState)
    (hmiss : cfg.allowMissingBundles = true)
    (hlen : cfg.outputFileNames.length = cfg.targetNames.length)
    (hdist : cfg.targetNames.Nodup)
    (h1 : CreateFileHandler cfg.filesType isObj = .ok hk)
    (h2 : initState hk fc secs = .ok st0)
    (h3 : hReadBundleStart fc st0 = .ok (none, st1)) :
    UnbundleFiles cfg fc isObj secs
      = ((cfg.targetNames.zip cfg.outputFileNames).map fun e =>
          (e.2, if hasHostKind (mkOffloadTargetInfo e.1) then fc else []), .ok ()) := by
  have hwl : buildSMap (cfg.targetNames.zip cfg.outputFileNames)
      = cfg.targetNames.zip cfg.outputFileNames := by
    refine buildSMap_nodup _ ?_
    rw [List.map_fst_zip _ _ (by omega)]
    exact hdist
  have hzlen : (cfg.targetNames.zip cfg.outputFileNames).length
      = cfg.targetNames.length := by
    rw [List.length_zip, hlen, Nat.min_self]
  unfold UnbundleFiles
  simp only [h1, h2, hwl]
  have hfuel : 2 * fc.length + cfg.targetNames.length + secs.length + 8
      = (2 * fc.length + cfg.targetNames.length + secs.length + 7) + 1 := by omega
  rw [hfuel]
  have hloop : unbundleLoop cfg.hipOpenmpCompatible fc
      ((2 * fc.length + cfg.targetNames.length + secs.length + 7) + 1) st0
      (cfg.targetNames.zip cfg.outputFileNames) false []
      = ([], .ok (cfg.targetNames.zip cfg.outputFileNames, false)) := by
    unfold unbundleLoop
    by_cases hemp : (cfg.targetNames.zip cfg.outputFileNames).isEmpty
    · rw [if_pos hemp]
    · rw [if_neg hemp, h3]
  rw [hloop]
  unfold unbundlePost
  rw [hmiss]
  simp [hzlen]

/-- Witness for C3 at a two-target request over a plain (bundle-free) binary
input. -/
theorem c3_witness :
    UnbundleFiles ⟨true, false, false, some 0, "bc", 1,
        [strBytes "host-x86_64-unknown-linux-gnu-", strBytes "hip-amdgcn-amd-amdhsa--gfx906"],
        [strBytes "outh", strBytes "outg"]⟩
      (strBytes "hello") false []
      = ([(strBytes "outh", strBytes "hello"), (strBytes "outg", [])], .ok ()) := by
  have h := c3_no_bundles_host_fallback
    ⟨true, false, false, some 0, "bc", 1,
      [strBytes "host-x86_64-unknown-linux-gnu-", strBytes "hip-amdgcn-amd-amdhsa--gfx906"],
      [strBytes "outh", strBytes "outg"]⟩
    (strBytes "hello") false [] .binary (.bin false [] none) (.bin false [] none)
    rfl rfl (by decide) (by decide) (by decide) (by decide)
  rw [h]
  decide

/-- C3 (counterexample): unbundling an input with no recognized bundles does
not return success when `AllowMissingBundles` is false — the missing-bundle
check precedes the host fallback, so even a lone requested host target yields
the `Can't find bundles for` error (and no output file is created). -/
theorem c3_counterexample :
    UnbundleFiles ⟨false, false, false, some 0, "bc", 1,
        [strBytes "host-x86_64-unknown-linux-gnu-"], [strBytes "out"]⟩
      (strBytes "hello") false []
      = ([], .err (.cantFindBundles [strBytes "host-x86_64-unknown-linux-gnu-"])) := by
  decide

/-- C4 (failing input): a binary header whose second record is truncated
returns success from `ReadHeader` with the first record already recorded and
`NextBundleInfo` uninitialized — the following `ReadBundleStart` does not
report zero bundles; it compares a default-constructed iterator against a
non-empty map's `end()` and dereferences garbage (undefined behaviour). -/
theorem c4_failing_input_not_zero_bundles :
    BinaryFileHandler.ReadHeader
        (magicStr ++ le64 2 ++ le64 1 ++ le64 0 ++ le64 1 ++ strBytes "T")
      = some ⟨[(strBytes "T", 0, 1)], false⟩ ∧
    initState .binary
        (magicStr ++ le64 2 ++ le64 1 ++ le64 0 ++ le64 1 ++ strBytes "T") []
      = .ok (.bin true [] none) ∧
    hReadBundleStart
        (magicStr ++ le64 2 ++ le64 1 ++ le64 0 ++ le64 1 ++ strBytes "T")
        (.bin true [] none) = .ub :=
  ⟨by decide, by decide, rfl⟩

/-- C5: with `hip_openmp_compatible` set, a bundle kind `hip` or `hipv4` is
kind-compatible with a requested kind `openmp` and vice versa; in particular
the bundle id `openmp-amdgcn-amd-amdhsa-` is compatible with the requested
target `hip-amdgcn-amd-amdhsa-`. -/
theorem c5_hip_openmp_compatibility :
    (∀ k : Bytes, k = strBytes "hip" ∨ k = strBytes "hipv4" →
      isOffloadKindCompatible true k (strBytes "openmp") = true ∧
      isOffloadKindCompatible true (strBytes "openmp") k = true) ∧
    isCodeObjectCompatible true
      (mkOffloadTargetInfo (strBytes "openmp-amdgcn-amd-amdhsa-"))
      (mkOffloadTargetInfo (strBytes "hip-amdgcn-amd-amdhsa-")) = true := by
  refine ⟨?_, by decide⟩
  rintro k (rfl | rfl) <;> exact ⟨by decide, by decide⟩

/-- Witness for C5 at the concrete kind `hip`. -/
theorem c5_witness :
    (strBytes "hip" = strBytes "hip" ∨ strBytes "hip" = strBytes "hipv4") ∧
      isOffloadKindCompatible true (strBytes "hip") (strBytes "openmp") = true :=
  ⟨Or.inl rfl, (c5_hip_openmp_compatibility.1 (strBytes "hip") (Or.inl rfl)).1⟩

set_option maxRecDepth 40000 in
/-- C6 (amended): bundling the two `.ll` inputs produces exactly the
start-marker/payload/end-marker sequence for `T1` then `T2`, but each marker
line is `"; __CLANG_OFFLOAD_BUNDLE____START__ "` / `"...____END__ "` — a
single space after `;` and no space before `__START__`/`__END__` (the two C
string literals concatenate directly). -/
theorem c6_text_container_bytes :
    BundleFiles ⟨true, true, false, some 0, "ll", 1,
        [strBytes "T1", strBytes "T2"], [strBytes "out"]⟩
      [strBytes "x\n", strBytes "y\n"] false []
      = .ok (.bytes (strBytes
          "\n; __CLANG_OFFLOAD_BUNDLE____START__ T1\nx\n\n; __CLANG_OFFLOAD_BUNDLE____END__ T1\n\n; __CLANG_OFFLOAD_BUNDLE____START__ T2\ny\n\n; __CLANG_OFFLOAD_BUNDLE____END__ T2\n")) := by
  decide

set_option maxRecDepth 40000 in
/-- C6 (counterexample): the marker bytes the claim requires —
`";  __CLANG_OFFLOAD_BUNDLE__ __START__ "` with two spaces after the comment
and a space before `__START__` — occur nowhere in the produced file. -/
theorem c6_counterexample :
    (BundleFiles ⟨true, true, false, some 0, "ll", 1,
        [strBytes "T1", strBytes "T2"], [strBytes "out"]⟩
      [strBytes "x\n", strBytes "y\n"] false []
      = .ok (.bytes (TextFileHandler.mkTextFile (strBytes ";")
          [(strBytes "T1", strBytes "x\n"), (strBytes "T2", strBytes "y\n")]))) ∧
    findIn (TextFileHandler.mkTextFile (strBytes ";")
        [(strBytes "T1", strBytes "x\n"), (strBytes "T2", strBytes "y\n")])
      (strBytes ";  __CLANG_OFFLOAD_BUNDLE__ __START__ ") = none ∧
    findIn (TextFileHandler.mkTextFile (strBytes ";")
        [(strBytes "T1", strBytes "x\n"), (strBytes "T2", strBytes "y\n")])
      (strBytes ";  __CLANG_OFFLOAD_BUNDLE__ __END__ ") = none :=
  ⟨rfl, by decide, by decide⟩

theorem containsKey_iff (l : List (Bytes × Nat × Nat)) (k : Bytes) :
    BinaryFileHandler.containsKey l k = true ↔ k ∈ l.map Prod.fst := by
  simp only [BinaryFileHandler.containsKey, List.any_eq_true, decide_eq_true_eq,
    List.mem_map]

theorem parseRecsTotal_extends (fc : Bytes) :
    ∀ (n pos : Nat) (acc : List (Bytes × Nat × Nat)),
      ∃ rest, (parseRecsTotal fc pos n acc).1 = acc ++ rest := by
  intro n
  induction n with
  | zero => intro pos acc; exact ⟨[], by simp [parseRecsTotal]⟩
  | succ n ih =>
      intro pos acc
      unfold parseRecsTotal
      by_cases h1 : pos + 8 > fc.length
      · rw [if_pos h1]; exact ⟨[], by simp⟩
      · rw [if_neg h1]
        by_cases h2 : pos + 16 > fc.length
        · rw [if_pos h2]; exact ⟨[], by simp⟩
        · rw [if_neg h2]
          by_cases h3 : pos + 24 > fc.length
          · rw [if_pos h3]; exact ⟨[], by simp⟩
          · rw [if_neg h3]
            by_cases h4 : (pos + 24 + read64 fc (pos + 16)) % 2 ^ 64 > fc.length
            · rw [if_pos h4]; exact ⟨[], by simp⟩
            · rw [if_neg h4]
              by_cases h5 : read64 fc pos = 0
                  ∨ (read64 fc pos + read64 fc (pos + 8)) % 2 ^ 64 > fc.length
              · rw [if_pos h5]; exact ⟨[], by simp⟩
              · rw [if_neg h5]
                by_cases h4b : pos + 24 + read64 fc (pos + 16) ≥ 2 ^ 64
                · rw [if_pos h4b]; exact ⟨[], by simp⟩
                rw [if_neg h4b]
                obtain ⟨r2, hr2⟩ := ih ((pos + 24 + read64 fc (pos + 16)) % 2 ^ 64)
                  (acc ++ [((fc.drop (pos + 24)).take (read64 fc (pos + 16)),
                    read64 fc (pos + 8), read64 fc pos)])
                refine ⟨((fc.drop (pos + 24)).take (read64 fc (pos + 16)),
                    read64 fc (pos + 8), read64 fc pos) :: r2, ?_⟩
                rw [hr2]
                simp

theorem parseRecs_eq_total (fc : Bytes) :
    ∀ (n pos : Nat) (acc : List (Bytes × Nat × Nat)),
      ((parseRecsTotal fc pos n acc).1.map Prod.fst).Nodup →
      (parseRecsTotal fc pos n acc).2.2 = false →
      BinaryFileHandler.parseRecs fc pos n acc
        = some ((parseRecsTotal fc pos n acc).1, (parseRecsTotal fc pos n acc).2.1) := by
  intro n
  induction n with
  | zero => intro pos acc _ _; simp [BinaryFileHandler.parseRecs, parseRecsTotal]
  | succ n ih =>
      intro pos acc hnd hwr
      unfold BinaryFileHandler.parseRecs
      unfold parseRecsTotal at hnd hwr ⊢
      by_cases h1 : pos + 8 > fc.length
      · rw [if_pos h1, if_pos h1]
      · rw [if_neg h1, if_neg h1]
        rw [if_neg h1] at hnd
        rw [if_neg h1] at hwr
        by_cases h2 : pos + 16 > fc.length
        · rw [if_pos h2, if_pos h2]
        · rw [if_neg h2, if_neg h2]
          rw [if_neg h2] at hnd
          rw [if_neg h2] at hwr
          by_cases h3 : pos + 24 > fc.length
          · rw [if_pos h3, if_pos h3]
          · rw [if_neg h3, if_neg h3]
            rw [if_neg h3] at hnd
            rw [if_neg h3] at hwr
            by_cases h4 : (pos + 24 + read64 fc (pos + 16)) % 2 ^ 64 > fc.length
            · rw [if_pos h4, if_pos h4]
            · rw [if_neg h4, if_neg h4]
              rw [if_neg h4] at hnd
              rw [if_neg h4] at hwr
              by_cases h5 : read64 fc pos = 0
                  ∨ (read64 fc pos + read64 fc (pos + 8)) % 2 ^ 64 > fc.length
              · rw [if_pos h5, if_pos h5]
              · rw [if_neg h5, if_neg h5]
                rw [if_neg h5] at hnd
                rw [if_neg h5] at hwr
                by_cases h4b : pos + 24 + read64 fc (pos + 16) ≥ 2 ^ 64
                · rw [if_pos h4b] at hwr
                  simp at hwr
                rw [if_neg h4b, if_neg h4b]
                rw [if_neg h4b] at hnd
                rw [if_neg h4b] at hwr
                set t := (fc.drop (pos + 24)).take (read64 fc (pos + 16)) with ht
                have hnotin : BinaryFileHandler.containsKey acc t = false := by
                  by_contra hcont
                  have hmem : t ∈ acc.map Prod.fst :=
                    (containsKey_iff acc t).mp (by
                      cases hval : BinaryFileHandler.containsKey acc t
                      · exact absurd hval hcont
                      · rfl)
                  obtain ⟨rest, hrest⟩ := parseRecsTotal_extends fc n
                    ((pos + 24 + read64 fc (pos + 16)) % 2 ^ 64)
                    (acc ++ [(t, read64 fc (pos + 8), read64 fc pos)])
                  rw [hrest] at hnd
                  simp only [List.append_assoc, List.singleton_append, List.map_append,
                    List.map_cons] at hnd
                  have hnd2 := List.perm_middle.nodup hnd
                  exact (List.nodup_cons.mp hnd2).1
                    (List.mem_append.mpr (Or.inl hmem))
                rw [if_neg (by rw [hnotin]; exact Bool.false_ne_true)]
                exact ih _ _ hnd hwr

/-- C10 (amended): every return path of `BinaryFileHandler::ReadHeader` is
`Error::success()`: on any input whose header records carry pairwise distinct
triples and in which no record passing the offset check has a
`ReadChars + TripleSize` sum wrapping past `2^64`, the parse returns success,
however truncated or malformed the buffer — so callers cannot distinguish a
corrupt bundle from a plain file by the returned error.  The abnormal exits
are the duplicate-triple assertion and the out-of-bounds `StringRef` read
after a wrapped bounds check passes (`c10_counterexample`). -/
theorem c10_read_header_never_errors (fc : Bytes)
    (hnd : ((headerRecsTotal fc).map Prod.fst).Nodup)
    (hwf : headerWrapped fc = false) :
    ∃ h, BinaryFileHandler.ReadHeader fc = some h := by
  unfold BinaryFileHandler.ReadHeader
  unfold headerRecsTotal at hnd
  unfold headerWrapped at hwf
  by_cases h1 : 24 > fc.length
  · exact ⟨_, by rw [if_pos h1]⟩
  · rw [if_neg h1] at hnd hwf ⊢
    by_cases h2 : fc.take 24 ≠ magicStr
    · exact ⟨_, by rw [if_pos h2]⟩
    · rw [if_neg h2] at hnd hwf ⊢
      by_cases h3 : 24 + 8 > fc.length
      · exact ⟨_, by rw [if_pos h3]⟩
      · rw [if_neg h3] at hnd hwf ⊢
        rw [parseRecs_eq_total fc (read64 fc 24) 32 [] hnd hwf]
        exact ⟨_, rfl⟩

/-- Witness for C10 on a malformed buffer (no magic, so no records and no
wrapping record). -/
theorem c10_witness :
    ((headerRecsTotal (strBytes "garbage")).map Prod.fst).Nodup ∧
    headerWrapped (strBytes "garbage") = false ∧
      ∃ h, BinaryFileHandler.ReadHeader (strBytes "garbage") = some h :=
  ⟨by decide, by decide,
    c10_read_header_never_errors (strBytes "garbage") (by decide) (by decide)⟩

/-- C10 (counterexample): a well-aligned 56-byte header whose single record
carries offset 1, size 0 and `TripleSize = 2^64 - 56` passes the wrapped
`ReadChars + TripleSize > FC.size()` check (the sum wraps to 0) and the
offset check, and the source then hashes a `StringRef` of the unwrapped huge
length in `BundlesInfo` — an out-of-bounds read, not a success return; no
record was recorded, so the duplicate-triple assertion is not involved. -/
theorem c10_counterexample :
    BinaryFileHandler.ReadHeader
        (magicStr ++ le64 1 ++ le64 1 ++ le64 0 ++ le64 (2 ^ 64 - 56)) = none ∧
    headerRecsTotal (magicStr ++ le64 1 ++ le64 1 ++ le64 0 ++ le64 (2 ^ 64 - 56))
      = [] :=
  ⟨by decide, by decide⟩

/-- C7 (failing input): on a text container whose last bundle has a start
marker but no end marker, `ReadBundle` computes the bundle length as
`npos - BundleStart` and hands it to a `StringRef` over the buffer: the read
extends `NPOS - 40` bytes from position 40 of a 41-byte buffer, far past its
end — not the in-bounds read the claim (and the spec's tolerance of a missing
end marker) requires. -/
theorem c7_read_bundle_reads_past_buffer :
    TextFileHandler.ReadBundleStart (strBytes ";")
        (strBytes "\n; __CLANG_OFFLOAD_BUNDLE____START__ T\nx") 0
      = (some (strBytes "T"), 39) ∧
    TextFileHandler.readBundleAccessLen (strBytes ";")
        (strBytes "\n; __CLANG_OFFLOAD_BUNDLE____START__ T\nx") 39
      = NPOS - 39 ∧
    (strBytes "\n; __CLANG_OFFLOAD_BUNDLE____START__ T\nx").length
      < 39 + (NPOS - 39) :=
  ⟨by decide, by decide, by decide⟩

theorem findIn_prefix (h pat : Bytes) (hp : h.take pat.length = pat) :
    findIn h pat = some 0 := by
  unfold findIn
  rw [if_pos hp]

theorem findIn_nil (pat : Bytes) (hne : pat ≠ []) : findIn [] pat = none := by
  unfold findIn
  rw [if_neg]
  intro h
  exact hne (by simpa using h.symm)

theorem findIn_newline (rest : Bytes) :
    ∀ A : Bytes, (10 : Nat) ∉ A → findIn (A ++ 10 :: rest) [10] = some A.length := by
  intro A
  induction A with
  | nil =>
      intro _
      exact findIn_prefix _ _ rfl
  | cons x xs ih =>
      intro hA
      have hx : x ≠ 10 := fun h => hA (h ▸ List.mem_cons_self x xs)
      show findIn (x :: (xs ++ 10 :: rest)) [10] = some (xs.length + 1)
      unfold findIn
      rw [if_neg (by simp [hx])]
      show (findIn (xs ++ 10 :: rest) [10]).map (· + 1) = some (xs.length + 1)
      rw [ih fun h => hA (List.mem_cons_of_mem _ h)]
      rfl

theorem findIn_clean (pat rest : Bytes) :
    ∀ p : Bytes, markerClean pat p →
      findIn (p ++ (pat ++ rest)) pat = some p.length := by
  intro p
  induction p with
  | nil =>
      intro _
      rw [List.nil_append]
      exact findIn_prefix _ _ (List.take_left pat rest)
  | cons x xs ih =>
      intro hclean
      have h0 : ¬((x :: (xs ++ (pat ++ rest))).take pat.length = pat) := by
        have hmc := hclean 0 (by simp)
        intro hcon
        apply hmc
        rw [List.drop_zero]
        have hre : (x :: xs) ++ pat ++ rest = ((x :: xs) ++ pat) ++ rest := by
          rw [List.append_assoc]
        have hle : pat.length ≤ ((x :: xs) ++ pat).length := by
          simp
          omega
        have := @List.take_append_of_le_length _ ((x :: xs) ++ pat) rest pat.length hle
        rw [← this]
        rw [List.append_assoc]
        simpa using hcon
      show findIn (x :: (xs ++ (pat ++ rest))) pat = some (xs.length + 1)
      unfold findIn
      rw [if_neg h0]
      show (findIn (xs ++ (pat ++ rest)) pat).map (· + 1) = some (xs.length + 1)
      have hclean2 : markerClean pat xs := by
        intro i hi
        have := hclean (i + 1) (by simpa using Nat.succ_lt_succ hi)
        simpa [List.drop_succ_cons] using this
      rw [ih hclean2]
      rfl

theorem drop_add (L : Bytes) (m k : Nat) : L.drop (m + k) = (L.drop m).drop k := by
  rw [List.drop_drop]

theorem drop_pre_add (pre X : Bytes) (k : Nat) :
    (pre ++ X).drop (pre.length + k) = X.drop k := by
  rw [drop_add, List.drop_left]

theorem block_decomp (c t p rest : Bytes) :
    TextFileHandler.bundleBlock c t p ++ rest
      = TextFileHandler.bundleStartString c
        ++ (t ++ 10 :: (p ++ (TextFileHandler.bundleEndString c ++ (t ++ 10 :: rest)))) := by
  simp [TextFileHandler.bundleBlock, List.append_assoc]

theorem text_step_start (c pre t p rest : Bytes) (ht : (10 : Nat) ∉ t) :
    TextFileHandler.ReadBundleStart c
        (pre ++ (TextFileHandler.bundleBlock c t p ++ rest)) pre.length
      = (some t,
        pre.length + (TextFileHandler.bundleStartString c).length + t.length + 1) := by
  have hd0 : (pre ++ (TextFileHandler.bundleBlock c t p ++ rest)).drop pre.length
      = TextFileHandler.bundleStartString c
        ++ (t ++ 10 :: (p ++ (TextFileHandler.bundleEndString c ++ (t ++ 10 :: rest)))) := by
    rw [List.drop_left, block_decomp]
  have hd1 : (pre ++ (TextFileHandler.bundleBlock c t p ++ rest)).drop
        (pre.length + (TextFileHandler.bundleStartString c).length)
      = t ++ 10 :: (p ++ (TextFileHandler.bundleEndString c ++ (t ++ 10 :: rest))) := by
    rw [drop_pre_add, block_decomp, List.drop_left]
  have hfind1 : findFrom (pre ++ (TextFileHandler.bundleBlock c t p ++ rest))
        (TextFileHandler.bundleStartString c) pre.length = some pre.length := by
    unfold findFrom
    rw [hd0, findIn_prefix _ _ (List.take_left _ _)]
    show some (0 + pre.length) = some pre.length
    simp only [Option.some.injEq]
    omega
  have hfind2 : findFrom (pre ++ (TextFileHandler.bundleBlock c t p ++ rest)) [10]
        (pre.length + (TextFileHandler.bundleStartString c).length)
      = some (pre.length + (TextFileHandler.bundleStartString c).length + t.length) := by
    unfold findFrom
    rw [hd1, findIn_newline _ t ht]
    show some (t.length + (pre.length + (TextFileHandler.bundleStartString c).length))
      = some (pre.length + (TextFileHandler.bundleStartString c).length + t.length)
    simp only [Option.some.injEq]
    omega
  unfold TextFileHandler.ReadBundleStart
  simp only [hfind1, hfind2, Nat.add_sub_cancel_left, hd1, List.take_left]

theorem text_step_bundle (c pre t p rest : Bytes)
    (hp : markerClean (TextFileHandler.bundleEndString c) p) :
    TextFileHandler.ReadBundle c
        (pre ++ (TextFileHandler.bundleBlock c t p ++ rest))
        (pre.length + (TextFileHandler.bundleStartString c).length + t.length + 1)
      = (p, pre.length + (TextFileHandler.bundleStartString c).length + t.length + 1
          + p.length) := by
  have hd2 : (pre ++ (TextFileHandler.bundleBlock c t p ++ rest)).drop
        (pre.length + (TextFileHandler.bundleStartString c).length + t.length + 1)
      = p ++ (TextFileHandler.bundleEndString c ++ (t ++ 10 :: rest)) := by
    rw [show pre.length + (TextFileHandler.bundleStartString c).length + t.length + 1
        = pre.length + ((TextFileHandler.bundleStartString c).length + (t.length + 1))
      from by omega]
    rw [drop_pre_add, block_decomp, drop_add, List.drop_left, drop_add, List.drop_left,
      List.drop_one, List.tail_cons]
  have hfind3 : findFrom (pre ++ (TextFileHandler.bundleBlock c t p ++ rest))
        (TextFileHandler.bundleEndString c)
        (pre.length + (TextFileHandler.bundleStartString c).length + t.length + 1)
      = some (pre.length + (TextFileHandler.bundleStartString c).length + t.length + 1
          + p.length) := by
    unfold findFrom
    rw [hd2, findIn_clean _ _ p hp]
    show some (p.length + (pre.length + (TextFileHandler.bundleStartString c).length
        + t.length + 1))
      = some (pre.length + (TextFileHandler.bundleStartString c).length + t.length + 1
        + p.length)
    simp only [Option.some.injEq]
    omega
  have hraw : findRaw (pre ++ (TextFileHandler.bundleBlock c t p ++ rest))
        (TextFileHandler.bundleEndString c)
        (pre.length + (TextFileHandler.bundleStartString c).length + t.length + 1)
      = pre.length + (TextFileHandler.bundleStartString c).length + t.length + 1
          + p.length := by
    rw [findRaw, hfind3]
    rfl
  unfold TextFileHandler.ReadBundle
  simp only [hraw, Nat.add_sub_cancel_left, hd2, List.take_left]

theorem text_step_end (c pre t p rest : Bytes) (hc : (10 : Nat) ∉ c)
    (ht : (10 : Nat) ∉ t) :
    TextFileHandler.ReadBundleEnd
        (pre ++ (TextFileHandler.bundleBlock c t p ++ rest))
        (pre.length + (TextFileHandler.bundleStartString c).length + t.length + 1
          + p.length)
      = some (pre.length + (TextFileHandler.bundleBlock c t p).length) := by
  have hd3 : (pre ++ (TextFileHandler.bundleBlock c t p ++ rest)).drop
        (pre.length + (TextFileHandler.bundleStartString c).length + t.length + 1
          + p.length)
      = TextFileHandler.bundleEndString c ++ (t ++ 10 :: rest) := by
    rw [show pre.length + (TextFileHandler.bundleStartString c).length + t.length + 1
          + p.length
        = pre.length + ((TextFileHandler.bundleStartString c).length
          + (t.length + (1 + p.length))) from by omega]
    rw [drop_pre_add, block_decomp, drop_add, List.drop_left, drop_add, List.drop_left,
      drop_add, List.drop_one, List.tail_cons, List.drop_left]
  have hlt : pre.length + (TextFileHandler.bundleStartString c).length + t.length + 1
      + p.length < (pre ++ (TextFileHandler.bundleBlock c t p ++ rest)).length := by
    have h := congrArg List.length hd3
    have hES : 0 < (TextFileHandler.bundleEndString c).length := by
      simp [TextFileHandler.bundleEndString]
    simp only [List.length_drop, List.length_append, List.length_cons] at h ⊢
    omega
  have hbyte : (pre ++ (TextFileHandler.bundleBlock c t p ++ rest)).getD
        (pre.length + (TextFileHandler.bundleStartString c).length + t.length + 1
          + p.length) 0 = 10 := by
    rw [List.getD_eq_getElem?_getD, ← List.head?_drop, hd3]
    rfl
  have hd4 : (pre ++ (TextFileHandler.bundleBlock c t p ++ rest)).drop
        (pre.length + (TextFileHandler.bundleStartString c).length + t.length + 1
          + p.length + 1)
      = ((c ++ strBytes " __CLANG_OFFLOAD_BUNDLE____END__ ") ++ t) ++ 10 :: rest := by
    rw [drop_add, hd3]
    show (TextFileHandler.bundleEndString c ++ (t ++ 10 :: rest)).drop 1
      = ((c ++ strBytes " __CLANG_OFFLOAD_BUNDLE____END__ ") ++ t) ++ 10 :: rest
    simp [TextFileHandler.bundleEndString, List.append_assoc]
  have hno10 : (10 : Nat) ∉ (c ++ strBytes " __CLANG_OFFLOAD_BUNDLE____END__ ") ++ t := by
    intro hmem
    rcases List.mem_append.mp hmem with h1 | h1
    · rcases List.mem_append.mp h1 with h2 | h2
      · exact hc h2
      · revert h2
        decide
    · exact ht h1
  unfold TextFileHandler.ReadBundleEnd
  rw [if_pos ⟨hlt, hbyte⟩]
  rw [show findFrom (pre ++ (TextFileHandler.bundleBlock c t p ++ rest)) [10]
        (pre.length + (TextFileHandler.bundleStartString c).length + t.length + 1
          + p.length + 1)
      = some (((c ++ strBytes " __CLANG_OFFLOAD_BUNDLE____END__ ") ++ t).length
          + (pre.length + (TextFileHandler.bundleStartString c).length + t.length + 1
            + p.length + 1))
    from by unfold findFrom; rw [hd4, findIn_newline _ _ hno10]; rfl]
  simp only [Option.some.injEq]
  have hblen : (TextFileHandler.bundleBlock c t p).length
      = (TextFileHandler.bundleStartString c).length + t.length + 1 + p.length
        + (TextFileHandler.bundleEndString c).length + t.length + 1 := by
    simp [TextFileHandler.bundleBlock]
    omega
  have hESlen : (TextFileHandler.bundleEndString c).length
      = (c ++ strBytes " __CLANG_OFFLOAD_BUNDLE____END__ ").length + 1 := by
    simp [TextFileHandler.bundleEndString]
  simp only [List.length_append] at hESlen ⊢
  omega

theorem otiEq_refl (x : OffloadTargetInfo) : otiEq x x = true := by
  simp [otiEq, tripleCompatible]

theorem isCodeObjectCompatible_refl (hip : Bool) (x : OffloadTargetInfo) :
    isCodeObjectCompatible hip x x = true := by
  unfold isCodeObjectCompatible
  rw [if_pos (otiEq_refl x)]

theorem mkTextFile_cons (c : Bytes) (a : Bytes × Bytes) (l : List (Bytes × Bytes)) :
    TextFileHandler.mkTextFile c (a :: l)
      = TextFileHandler.bundleBlock c a.1 a.2 ++ TextFileHandler.mkTextFile c l := by
  simp [TextFileHandler.mkTextFile]

theorem text_unbundle_loop (hip : Bool) (c : Bytes) (hc : (10 : Nat) ∉ c) :
    ∀ (l : List ((Bytes × Bytes) × Bytes)) (pre : Bytes) (fuel : Nat) (fh : Bool)
      (evs : Events),
      l.length < fuel →
      (∀ e ∈ l, e.1.1 ≠ [] ∧ (10 : Nat) ∉ e.1.1
        ∧ markerClean (TextFileHandler.bundleEndString c) e.1.2) →
      unbundleLoop hip (pre ++ TextFileHandler.mkTextFile c (l.map Prod.fst)) fuel
          (.text c pre.length) (l.map fun e => (e.1.1, e.2)) fh evs
        = (evs ++ l.map fun e => (e.2, e.1.2),
          .ok ([], l.foldl (fun b e => b || hasHostKind (mkOffloadTargetInfo e.1.1)) fh)) := by
  intro l
  induction l with
  | nil =>
      intro pre fuel fh evs hfuel _
      obtain ⟨k, rfl⟩ : ∃ k, fuel = k + 1 := ⟨fuel - 1, by omega⟩
      simp [unbundleLoop]
  | cons e ls ih =>
      intro pre fuel fh evs hfuel hcond
      obtain ⟨k, rfl⟩ : ∃ k, fuel = k + 1 := ⟨fuel - 1, by omega⟩
      obtain ⟨ht0, ht10, hmc⟩ := hcond e (List.mem_cons_self _ _)
      have hA := text_step_start c pre e.1.1 e.1.2
        (TextFileHandler.mkTextFile c (ls.map Prod.fst)) ht10
      have hB := text_step_bundle c pre e.1.1 e.1.2
        (TextFileHandler.mkTextFile c (ls.map Prod.fst)) hmc
      have hC := text_step_end c pre e.1.1 e.1.2
        (TextFileHandler.mkTextFile c (ls.map Prod.fst)) hc ht10
      have ht0e : e.1.1.isEmpty = false := by
        cases hcase : e.1.1 with
        | nil => exact absurd hcase ht0
        | cons x xs => rfl
      have hfc : firstCompatible hip ((e.1.1, e.2) :: ls.map fun e => (e.1.1, e.2)) e.1.1
          = some (e.1.1, e.2) := by
        unfold firstCompatible
        exact List.find?_cons_of_pos _ (isCodeObjectCompatible_refl hip _)
      have her : eraseKey ((e.1.1, e.2) :: ls.map fun e => (e.1.1, e.2)) e.1.1
          = ls.map fun e => (e.1.1, e.2) := by
        unfold eraseKey
        exact List.eraseP_cons_of_pos (by simp)
      rw [List.map_cons, mkTextFile_cons]
      rw [List.map_cons]
      unfold unbundleLoop
      rw [if_neg (by simp)]
      simp only [hReadBundleStart, hA, ht0e, hfc, hReadBundle, hB, hReadBundleEnd, hC,
        her, Bool.false_eq_true, if_false]
      have hrec := ih (pre ++ TextFileHandler.bundleBlock c e.1.1 e.1.2) k
        (fh || hasHostKind (mkOffloadTargetInfo e.1.1)) (evs ++ [(e.2, e.1.2)])
        (by simpa using Nat.lt_of_succ_lt_succ hfuel)
        (fun u hu => hcond u (List.mem_cons_of_mem _ hu))
      rw [List.append_assoc] at hrec
      rw [show (pre ++ TextFileHandler.bundleBlock c e.1.1 e.1.2).length
          = pre.length + (TextFileHandler.bundleBlock c e.1.1 e.1.2).length
        from List.length_append _ _] at hrec
      rw [hrec]
      simp

theorem text_list_loop (c : Bytes) (hc : (10 : Nat) ∉ c) :
    ∀ (l : List (Bytes × Bytes)) (pre : Bytes) (fuel : Nat) (acc : List Bytes),
      l.length < fuel →
      (∀ e ∈ l, e.1 ≠ [] ∧ (10 : Nat) ∉ e.1
        ∧ markerClean (TextFileHandler.bundleEndString c) e.2) →
      listLoop (pre ++ TextFileHandler.mkTextFile c l) fuel (.text c pre.length) acc
        = .ok (acc ++ l.map Prod.fst) := by
  intro l
  induction l with
  | nil =>
      intro pre fuel acc hfuel _
      obtain ⟨k, rfl⟩ : ∃ k, fuel = k + 1 := ⟨fuel - 1, by omega⟩
      have hnone : TextFileHandler.ReadBundleStart c (pre ++ TextFileHandler.mkTextFile c [])
          pre.length = (none, NPOS) := by
        unfold TextFileHandler.ReadBundleStart
        rw [show findFrom (pre ++ TextFileHandler.mkTextFile c [])
            (TextFileHandler.bundleStartString c) pre.length = none from ?_]
        unfold findFrom
        rw [show (pre ++ TextFileHandler.mkTextFile c []).drop pre.length = [] from ?_]
        · rw [findIn_nil _ (by simp [TextFileHandler.bundleStartString])]
          rfl
        · rw [show TextFileHandler.mkTextFile c [] = [] from rfl, List.append_nil]
          exact List.drop_length _
      unfold listLoop
      simp only [hReadBundleStart, hnone]
      simp
  | cons e ls ih =>
      intro pre fuel acc hfuel hcond
      obtain ⟨k, rfl⟩ : ∃ k, fuel = k + 1 := ⟨fuel - 1, by omega⟩
      obtain ⟨ht0, ht10, hmc⟩ := hcond e (List.mem_cons_self _ _)
      have hA := text_step_start c pre e.1 e.2 (TextFileHandler.mkTextFile c ls) ht10
      have hB := text_step_bundle c pre e.1 e.2 (TextFileHandler.mkTextFile c ls) hmc
      have hC := text_step_end c pre e.1 e.2 (TextFileHandler.mkTextFile c ls) hc ht10
      have ht0e : e.1.isEmpty = false := by
        cases hcase : e.1 with
        | nil => exact absurd hcase ht0
        | cons x xs => rfl
      have hcb : TextFileHandler.listCallback c
          (pre ++ (TextFileHandler.bundleBlock c e.1 e.2 ++ TextFileHandler.mkTextFile c ls))
          (pre.length + (TextFileHandler.bundleStartString c).length + e.1.length + 1)
          = some (pre.length + (TextFileHandler.bundleBlock c e.1 e.2).length) := by
        have hraw : findRaw
            (pre ++ (TextFileHandler.bundleBlock c e.1 e.2
              ++ TextFileHandler.mkTextFile c ls))
            (TextFileHandler.bundleEndString c)
            (pre.length + (TextFileHandler.bundleStartString c).length + e.1.length + 1)
            = pre.length + (TextFileHandler.bundleStartString c).length + e.1.length + 1
              + e.2.length := by
          have := congrArg Prod.snd hB
          simpa [TextFileHandler.ReadBundle] using this
        unfold TextFileHandler.listCallback
        rw [hraw, hC]
      rw [mkTextFile_cons]
      unfold listLoop
      simp only [hReadBundleStart, hA, ht0e, Bool.false_eq_true, if_false,
        hListCallback, hcb]
      have hrec := ih (pre ++ TextFileHandler.bundleBlock c e.1 e.2) k (acc ++ [e.1])
        (by simpa using Nat.lt_of_succ_lt_succ hfuel)
        (fun u hu => hcond u (List.mem_cons_of_mem _ hu))
      rw [List.append_assoc] at hrec
      rw [show (pre ++ TextFileHandler.bundleBlock c e.1 e.2).length
          = pre.length + (TextFileHandler.bundleBlock c e.1 e.2).length
        from List.length_append _ _] at hrec
      rw [hrec]
      simp

/-- C9 (amended): the final write-out of `UnbundleArchive` processes targets
in requested order: with `allow-missing-bundles` every target gets an archive
holding exactly its accumulated members (empty when it accumulated none);
without it, if every target accumulated members the same holds, and otherwise
the operation stops at the first memberless target with an error naming it,
leaving archives written only for the targets preceding it. -/
theorem c9_archive_writeout {α : Type} (outMap : List (Bytes × Bytes))
    (archMap : List (Bytes × List α)) :
    (∀ targets : List Bytes, writeTargetArchives targets outMap archMap true
      = (targets.map fun t =>
          (((outMap.find? fun e => decide (e.1 = t)).map Prod.snd).getD [],
           ((archMap.find? fun e => decide (e.1 = t)).map Prod.snd).getD []), .ok ())) ∧
    (∀ targets : List Bytes,
      (∀ t ∈ targets, ((archMap.find? fun e => decide (e.1 = t)).isSome) = true) →
      writeTargetArchives targets outMap archMap false
        = (targets.map fun t =>
            (((outMap.find? fun e => decide (e.1 = t)).map Prod.snd).getD [],
             ((archMap.find? fun e => decide (e.1 = t)).map Prod.snd).getD []), .ok ())) ∧
    (∀ (pre : List Bytes) (t : Bytes) (post : List Bytes),
      (∀ u ∈ pre, ((archMap.find? fun e => decide (e.1 = u)).isSome) = true) →
      (archMap.find? fun e => decide (e.1 = t)) = none →
      writeTargetArchives (pre ++ t :: post) outMap archMap false
        = (pre.map fun u =>
            (((outMap.find? fun e => decide (e.1 = u)).map Prod.snd).getD [],
             ((archMap.find? fun e => decide (e.1 = u)).map Prod.snd).getD []),
           .err (.noCompatibleCodeObject t))) := by
  refine ⟨?_, ?_, ?_⟩
  · intro targets
    induction targets with
    | nil => rfl
    | cons t ts ih =>
        unfold writeTargetArchives
        cases hfind : archMap.find? fun e => decide (e.1 = t) with
        | some e => simp [hfind, ih]
        | none => simp [hfind, ih]
  · intro targets
    induction targets with
    | nil => intro _; rfl
    | cons t ts ih =>
        intro hall
        unfold writeTargetArchives
        cases hfind : archMap.find? fun e => decide (e.1 = t) with
        | some e =>
            rw [ih fun u hu => hall u (List.mem_cons_of_mem _ hu)]
            simp [hfind]
        | none =>
            have := hall t (List.mem_cons_self _ _)
            rw [hfind] at this
            simp at this
  · intro pre
    induction pre with
    | nil =>
        intro t post _ hnone
        unfold writeTargetArchives
        simp [hnone]
    | cons u us ih =>
        intro t post hall hnone
        unfold writeTargetArchives
        cases hfind : archMap.find? fun e => decide (e.1 = u) with
        | some e =>
            rw [List.cons_append]
            simp only [hfind]
            rw [ih t post (fun v hv => hall v (List.mem_cons_of_mem _ hv)) hnone]
            simp [hfind]
        | none =>
            have := hall u (List.mem_cons_self _ _)
            rw [hfind] at this
            simp at this

/-- Witness for C9: a single target with one accumulated member, no missing
bundles allowed. -/
theorem c9_witness :
    (∀ t ∈ [strBytes "t2"],
      (([(strBytes "t2", [strBytes "m"])].find? fun e => decide (e.1 = t)).isSome) = true) ∧
    writeTargetArchives [strBytes "t2"] [(strBytes "t2", strBytes "o2")]
        [(strBytes "t2", [strBytes "m"])] false
      = ([(strBytes "o2", [strBytes "m"])], .ok ()) := by
  refine ⟨by decide, ?_⟩
  rw [(c9_archive_writeout [(strBytes "t2", strBytes "o2")]
    [(strBytes "t2", [strBytes "m"])]).2.1 [strBytes "t2"] (by decide)]
  decide

/-- C9 (counterexample): with `allow-missing-bundles` off, a memberless first
target aborts the write-out with an error naming it, so the second target —
which did accumulate a member — never gets its archive written, contrary to
the claim's `every target with accumulated members gets an archive`. -/
theorem c9_counterexample :
    writeTargetArchives [strBytes "t1", strBytes "t2"]
        [(strBytes "t1", strBytes "o1"), (strBytes "t2", strBytes "o2")]
        [(strBytes "t2", [strBytes "m"])] false
      = ([], .err (.noCompatibleCodeObject (strBytes "t1"))) ∧
    (([(strBytes "t2", [strBytes "m"])].find? fun e =>
        decide (e.1 = strBytes "t2")).isSome) = true :=
  ⟨by decide, by decide⟩

theorem read64_at (fc : Bytes) (pos : Nat) (v : Nat) (X : Bytes)
    (h : fc.drop pos = le64 v ++ X) (hv : v < 2 ^ 64) : read64 fc pos = v := by
  unfold read64
  rw [h, show (8 : Nat) = (le64 v).length from (le64_length v).symm, List.take_left,
    readLE_le64 v hv, Nat.mod_eq_of_lt hv]

theorem drop8_le64 (v : Nat) (X : Bytes) : (le64 v ++ X).drop 8 = X := by
  rw [show (8 : Nat) = (le64 v).length from (le64_length v).symm, List.drop_left]

theorem headerBytes_decomp (pairs : List (Bytes × Bytes)) (a : Nat) :
    BinaryFileHandler.headerBytes pairs a
      = magicStr ++ (le64 pairs.length ++ recsBytes (recsOf pairs a)) := by
  simp [BinaryFileHandler.headerBytes, recsBytes, recsOf, List.map_map, Function.comp_def,
    List.append_assoc]

theorem recsBytes_cons (r : Bytes × Nat × Nat) (rs : List (Bytes × Nat × Nat)) :
    recsBytes (r :: rs)
      = le64 r.2.2 ++ (le64 r.2.1 ++ (le64 r.1.length ++ (r.1 ++ recsBytes rs))) := by
  simp [recsBytes, List.append_assoc]

theorem fileWrite_append_form (f : Bytes) (o : Nat) (d : Bytes) (h : f.length ≤ o)
    (hd : d ≠ []) :
    fileWrite f o d = f ++ (List.replicate (o - f.length) 0 ++ d) := by
  unfold fileWrite
  rw [if_neg hd, List.take_of_length_le h, List.drop_eq_nil_of_le (by omega)]
  simp [List.append_assoc]

theorem sum_map_ge (l : List Bytes) :
    24 * l.length ≤ (l.map fun t => 24 + t.length).sum := by
  induction l with
  | nil => simp
  | cons x xs ih =>
      simp only [List.map_cons, List.sum_cons, List.length_cons]
      omega

theorem parseRecs_written (fc : Bytes) (hlen : fc.length < 2 ^ 64) :
    ∀ (recs : List (Bytes × Nat × Nat)) (pos : Nat) (acc : List (Bytes × Nat × Nat))
      (tail : Bytes),
      fc.drop pos = recsBytes recs ++ tail →
      (∀ r ∈ recs, r.2.2 ≠ 0 ∧ r.2.2 + r.2.1 ≤ fc.length) →
      ((acc ++ recs).map Prod.fst).Nodup →
      BinaryFileHandler.parseRecs fc pos recs.length acc = some (acc ++ recs, true) := by
  intro recs
  induction recs with
  | nil => intro pos acc tail _ _ _; simp [BinaryFileHandler.parseRecs]
  | cons r rs ih =>
      intro pos acc tail hdrop hokall hnd
      obtain ⟨t, size, off⟩ := r
      obtain ⟨hne, hbd⟩ : off ≠ 0 ∧ off + size ≤ fc.length :=
        hokall (t, size, off) (List.mem_cons_self _ _)
      simp only [recsBytes_cons, List.append_assoc] at hdrop
      have hL := congrArg List.length hdrop
      simp only [List.length_drop, List.length_append, le64_length] at hL
      have h8 : fc.drop (pos + 8)
          = le64 size ++ (le64 t.length ++ (t ++ (recsBytes rs ++ tail))) := by
        rw [drop_add, hdrop, drop8_le64]
      have h16 : fc.drop (pos + 16) = le64 t.length ++ (t ++ (recsBytes rs ++ tail)) := by
        rw [show pos + 16 = pos + 8 + 8 by omega, drop_add, h8, drop8_le64]
      have h24 : fc.drop (pos + 24) = t ++ (recsBytes rs ++ tail) := by
        rw [show pos + 24 = pos + 16 + 8 by omega, drop_add, h16, drop8_le64]
      have hroff : read64 fc pos = off := read64_at fc pos off _ hdrop (by omega)
      have hrsize : read64 fc (pos + 8) = size := read64_at fc (pos + 8) size _ h8 (by omega)
      have hrtsz : read64 fc (pos + 16) = t.length :=
        read64_at fc (pos + 16) t.length _ h16 (by omega)
      simp only [List.length_cons]
      unfold BinaryFileHandler.parseRecs
      rw [hroff, hrsize, hrtsz, h24]
      rw [if_neg (by omega : ¬pos + 8 > fc.length),
        if_neg (by omega : ¬pos + 16 > fc.length),
        if_neg (by omega : ¬pos + 24 > fc.length)]
      have hm1 : (pos + 24 + t.length) % 2 ^ 64 = pos + 24 + t.length :=
        Nat.mod_eq_of_lt (by omega)
      have hm2 : (off + size) % 2 ^ 64 = off + size := Nat.mod_eq_of_lt (by omega)
      simp only [hm1, hm2, List.take_left]
      rw [if_neg (by omega : ¬pos + 24 + t.length > fc.length),
        if_neg (by omega : ¬(off = 0 ∨ off + size > fc.length)),
        if_neg (by omega : ¬pos + 24 + t.length ≥ 2 ^ 64)]
      have hnotin : BinaryFileHandler.containsKey acc t = false := by
        by_contra hcont
        have hmem : t ∈ acc.map Prod.fst := (containsKey_iff acc t).mp (by
          cases hval : BinaryFileHandler.containsKey acc t
          · exact absurd hval hcont
          · rfl)
        simp only [List.map_append, List.map_cons] at hnd
        have hnd2 := List.perm_middle.nodup hnd
        exact (List.nodup_cons.mp hnd2).1 (List.mem_append.mpr (Or.inl hmem))
      rw [if_neg (by rw [hnotin]; exact Bool.false_ne_true)]
      rw [ih (pos + 24 + t.length) (acc ++ [(t, size, off)]) tail
        (by rw [drop_add, h24, List.drop_left])
        (fun r hr => hokall r (List.mem_cons_of_mem _ hr))
        (by simp only [List.append_assoc, List.singleton_append]; exact hnd)]
      simp

theorem foldl_fileWrite_form (a : Nat) (ha : 0 < a) :
    ∀ (ps : List Bytes) (c : Nat) (f : Bytes), f.length = c →
      (∀ p ∈ ps, p ≠ []) →
      ((BinaryFileHandler.offsetsFrom a c (ps.map List.length)).zip ps).foldl
          (fun g e => fileWrite g e.1.1 e.2) f
        = f ++ binTail a c ps := by
  intro ps
  induction ps with
  | nil => intro c f hf _; simp [BinaryFileHandler.offsetsFrom, binTail]
  | cons p ps ih =>
      intro c f hf hne
      have hc : c ≤ alignTo c a := alignTo_le c a ha
      simp only [List.map_cons, BinaryFileHandler.offsetsFrom, List.zip_cons_cons,
        List.foldl_cons, binTail]
      have hw : fileWrite f (alignTo c a) p
          = f ++ (List.replicate (alignTo c a - c) 0 ++ p) := by
        rw [fileWrite_append_form f _ p (by omega) (hne p (List.mem_cons_self _ _)), hf]
      rw [hw, ih (alignTo c a + p.length) (f ++ (List.replicate (alignTo c a - c) 0 ++ p))
        (by simp only [List.length_append, List.length_replicate, hf]; omega)
        (fun q hq => hne q (List.mem_cons_of_mem _ hq))]
      simp [List.append_assoc]

theorem binTail_slice (a : Nat) (ha : 0 < a) :
    ∀ (ps : List Bytes) (c : Nat) (f : Bytes), f.length = c →
      ∀ pr ∈ (BinaryFileHandler.offsetsFrom a c (ps.map List.length)).zip ps,
        ((f ++ binTail a c ps).drop pr.1.1).take pr.1.2 = pr.2 := by
  intro ps
  induction ps with
  | nil => intro c f hf pr hpr; simp [BinaryFileHandler.offsetsFrom] at hpr
  | cons p ps ih =>
      intro c f hf pr hpr
      have hc : c ≤ alignTo c a := alignTo_le c a ha
      simp only [List.map_cons, BinaryFileHandler.offsetsFrom, List.zip_cons_cons,
        List.mem_cons] at hpr
      rcases hpr with hpr | hpr
      · subst hpr
        show ((f ++ binTail a c (p :: ps)).drop (alignTo c a)).take p.length = p
        rw [show f ++ binTail a c (p :: ps)
            = (f ++ List.replicate (alignTo c a - c) 0)
              ++ (p ++ binTail a (alignTo c a + p.length) ps) from by
          simp [binTail, List.append_assoc]]
        rw [List.drop_left' (by
          simp only [List.length_append, List.length_replicate, hf]; omega)]
        exact List.take_left p _
      · have h2 := ih (alignTo c a + p.length)
          (f ++ (List.replicate (alignTo c a - c) 0 ++ p))
          (by simp only [List.length_append, List.length_replicate, hf]; omega) pr hpr
        rw [show f ++ binTail a c (p :: ps)
            = (f ++ (List.replicate (alignTo c a - c) 0 ++ p))
              ++ binTail a (alignTo c a + p.length) ps from by
          simp [binTail, List.append_assoc]]
        exact h2

theorem recsOf_keys (pairs : List (Bytes × Bytes)) (a : Nat) :
    (recsOf pairs a).map Prod.fst = pairs.map Prod.fst := by
  have hlen : pairs.length ≤ (BinaryFileHandler.bundleOffsets pairs a).length := by
    rw [BinaryFileHandler.bundleOffsets, offsetsFrom_length, List.length_map]
  have h := List.map_fst_zip pairs (BinaryFileHandler.bundleOffsets pairs a) hlen
  calc (recsOf pairs a).map Prod.fst
      = ((pairs.zip (BinaryFileHandler.bundleOffsets pairs a)).map Prod.fst).map
          Prod.fst := by
        simp [recsOf, List.map_map, Function.comp_def]
    _ = pairs.map Prod.fst := by rw [h]

theorem mkBinaryFile_form (pairs : List (Bytes × Bytes)) (a : Nat) (ha : 0 < a)
    (hpe : ∀ pr ∈ pairs, pr.2 ≠ []) :
    BinaryFileHandler.mkBinaryFile pairs a
      = BinaryFileHandler.headerBytes pairs a
        ++ binTail a (BinaryFileHandler.headerBaseSize (pairs.map Prod.fst))
            (pairs.map Prod.snd) := by
  have hss : (pairs.map Prod.snd).map List.length = pairs.map fun p => p.2.length := by
    simp [List.map_map, Function.comp_def]
  unfold BinaryFileHandler.mkBinaryFile BinaryFileHandler.bundleOffsets
  rw [← hss]
  exact foldl_fileWrite_form a ha (pairs.map Prod.snd) _ _ (headerBytes_length pairs a)
    (by
      intro p hp
      obtain ⟨pr, hpr, rfl⟩ := List.mem_map.mp hp
      exact hpe pr hpr)

theorem headerBaseSize_le_length (pairs : List (Bytes × Bytes)) (a : Nat) (ha : 0 < a)
    (hpe : ∀ pr ∈ pairs, pr.2 ≠ []) :
    BinaryFileHandler.headerBaseSize (pairs.map Prod.fst)
      ≤ (BinaryFileHandler.mkBinaryFile pairs a).length := by
  rw [mkBinaryFile_form pairs a ha hpe]
  simp [headerBytes_length]

theorem recsOf_ok (pairs : List (Bytes × Bytes)) (a : Nat) (ha : 0 < a)
    (hpe : ∀ pr ∈ pairs, pr.2 ≠ []) :
    ∀ r ∈ recsOf pairs a,
      r.2.2 ≠ 0 ∧ r.2.2 + r.2.1 ≤ (BinaryFileHandler.mkBinaryFile pairs a).length := by
  intro r hr
  unfold recsOf at hr
  obtain ⟨⟨⟨tp, pl⟩, o, s⟩, he, rfl⟩ := List.mem_map.mp hr
  have hmem : (o, s) ∈ BinaryFileHandler.bundleOffsets pairs a := (List.of_mem_zip he).2
  rw [BinaryFileHandler.bundleOffsets] at hmem
  have hss : (pairs.map Prod.snd).map List.length = pairs.map fun p => p.2.length := by
    simp [List.map_map, Function.comp_def]
  refine ⟨?_, ?_⟩
  · show o ≠ 0
    have hlb := offsetsFrom_lb a ha _ _ _ hmem
    unfold BinaryFileHandler.headerBaseSize at hlb
    simp only at hlb
    omega
  · show o + s ≤ _
    have hwi := offsetsFrom_within a ha _ _ _ hmem
    rw [mkBinaryFile_length pairs a ha hpe, hss]
    exact hwi

/-- `ReadHeader` on a file `WriteHeader`/`WriteBundle` produced from
non-empty payloads recovers exactly the written records, in order, with
`NextBundleInfo` initialized. -/
theorem readHeader_mkBinaryFile (pairs : List (Bytes × Bytes)) (a : Nat) (ha : 0 < a)
    (hfc : (BinaryFileHandler.mkBinaryFile pairs a).length < 2 ^ 64)
    (hnd : (pairs.map Prod.fst).Nodup)
    (hpe : ∀ pr ∈ pairs, pr.2 ≠ []) :
    BinaryFileHandler.ReadHeader (BinaryFileHandler.mkBinaryFile pairs a)
      = some ⟨recsOf pairs a, true⟩ := by
  have hall : BinaryFileHandler.mkBinaryFile pairs a
      = magicStr ++ (le64 pairs.length ++ (recsBytes (recsOf pairs a)
          ++ binTail a (BinaryFileHandler.headerBaseSize (pairs.map Prod.fst))
              (pairs.map Prod.snd))) := by
    rw [mkBinaryFile_form pairs a ha hpe, headerBytes_decomp]
    simp [List.append_assoc]
  have hm24 : magicStr.length = 24 := rfl
  have hbase := headerBaseSize_le_length pairs a ha hpe
  have hsum : 24 * pairs.length
      ≤ ((pairs.map Prod.fst).map fun t => 24 + t.length).sum := by
    have h := sum_map_ge (pairs.map Prod.fst)
    simpa using h
  have hbase32 : 32 + 24 * pairs.length
      ≤ (BinaryFileHandler.mkBinaryFile pairs a).length := by
    unfold BinaryFileHandler.headerBaseSize at hbase
    omega
  have hN : pairs.length < 2 ^ 64 := by omega
  have hdrop24 : (BinaryFileHandler.mkBinaryFile pairs a).drop 24
      = le64 pairs.length ++ (recsBytes (recsOf pairs a)
          ++ binTail a (BinaryFileHandler.headerBaseSize (pairs.map Prod.fst))
              (pairs.map Prod.snd)) := by
    rw [hall, ← hm24, List.drop_left]
  have hr24 : read64 (BinaryFileHandler.mkBinaryFile pairs a) 24 = pairs.length :=
    read64_at _ 24 _ _ hdrop24 hN
  have hdrop32 : (BinaryFileHandler.mkBinaryFile pairs a).drop 32
      = recsBytes (recsOf pairs a)
          ++ binTail a (BinaryFileHandler.headerBaseSize (pairs.map Prod.fst))
              (pairs.map Prod.snd) := by
    rw [show (32 : Nat) = 24 + 8 from rfl, drop_add, hdrop24, drop8_le64]
  have hrlen : (recsOf pairs a).length = pairs.length := by
    unfold recsOf
    rw [List.length_map, List.length_zip, BinaryFileHandler.bundleOffsets,
      offsetsFrom_length, List.length_map, Nat.min_self]
  have hnd2 : ((recsOf pairs a).map Prod.fst).Nodup := by
    rw [recsOf_keys]; exact hnd
  unfold BinaryFileHandler.ReadHeader
  rw [if_neg (by omega : ¬24 > (BinaryFileHandler.mkBinaryFile pairs a).length)]
  rw [if_neg (by
    simp only [ne_eq, not_not]
    rw [hall, ← hm24, List.take_left])]
  rw [if_neg (by omega : ¬24 + 8 > (BinaryFileHandler.mkBinaryFile pairs a).length)]
  rw [hr24, ← hrlen,
    parseRecs_written (BinaryFileHandler.mkBinaryFile pairs a) hfc
      (recsOf pairs a) 32 [] _ hdrop32 (recsOf_ok pairs a ha hpe) hnd2]
  simp

theorem bin_unbundle_loop (hip : Bool) (fc : Bytes) :
    ∀ (l : List ((Bytes × Nat × Nat) × Bytes)) (cur : Option (Bytes × Nat × Nat))
      (fuel : Nat) (fh : Bool) (evs : Events),
      l.length < fuel →
      (∀ e ∈ l, e.1.1 ≠ []) →
      unbundleLoop hip fc fuel (.bin false (l.map Prod.fst) cur)
          (l.map fun e => (e.1.1, e.2)) fh evs
        = (evs ++ l.map fun e => (e.2, (fc.drop e.1.2.2).take e.1.2.1),
          .ok ([], l.foldl (fun b e => b || hasHostKind (mkOffloadTargetInfo e.1.1)) fh)) := by
  intro l
  induction l with
  | nil =>
      intro cur fuel fh evs hfuel _
      obtain ⟨k, rfl⟩ : ∃ k, fuel = k + 1 := ⟨fuel - 1, by omega⟩
      simp [unbundleLoop]
  | cons e ls ih =>
      intro cur fuel fh evs hfuel hne
      obtain ⟨k, rfl⟩ : ∃ k, fuel = k + 1 := ⟨fuel - 1, by omega⟩
      have ht0 := hne e (List.mem_cons_self _ _)
      have ht0e : e.1.1.isEmpty = false := by
        cases hcase : e.1.1 with
        | nil => exact absurd hcase ht0
        | cons x xs => rfl
      have hfcm : firstCompatible hip ((e.1.1, e.2) :: ls.map fun u => (u.1.1, u.2)) e.1.1
          = some (e.1.1, e.2) := by
        unfold firstCompatible
        exact List.find?_cons_of_pos _ (isCodeObjectCompatible_refl hip _)
      have her : eraseKey ((e.1.1, e.2) :: ls.map fun u => (u.1.1, u.2)) e.1.1
          = ls.map fun u => (u.1.1, u.2) := by
        unfold eraseKey
        exact List.eraseP_cons_of_pos (by simp)
      rw [List.map_cons, List.map_cons]
      unfold unbundleLoop
      rw [if_neg (by simp)]
      simp only [hReadBundleStart, hReadBundle, hReadBundleEnd, ht0e, hfcm, her,
        Bool.false_eq_true, if_false]
      rw [ih (some e.1) k (fh || hasHostKind (mkOffloadTargetInfo e.1.1))
        (evs ++ [(e.2, (fc.drop e.1.2.2).take e.1.2.1)])
        (by simpa using Nat.lt_of_succ_lt_succ hfuel)
        (fun u hu => hne u (List.mem_cons_of_mem _ hu))]
      simp

theorem bin_list_loop (fc : Bytes) :
    ∀ (l : List (Bytes × Nat × Nat)) (cur : Option (Bytes × Nat × Nat))
      (fuel : Nat) (acc : List Bytes),
      l.length < fuel →
      (∀ e ∈ l, e.1 ≠ []) →
      listLoop fc fuel (.bin false l cur) acc = .ok (acc ++ l.map Prod.fst) := by
  intro l
  induction l with
  | nil =>
      intro cur fuel acc hfuel _
      obtain ⟨k, rfl⟩ : ∃ k, fuel = k + 1 := ⟨fuel - 1, by omega⟩
      simp [listLoop, hReadBundleStart]
  | cons e ls ih =>
      intro cur fuel acc hfuel hne
      obtain ⟨k, rfl⟩ : ∃ k, fuel = k + 1 := ⟨fuel - 1, by omega⟩
      have ht0 := hne e (List.mem_cons_self _ _)
      have ht0e : e.1.isEmpty = false := by
        cases hcase : e.1 with
        | nil => exact absurd hcase ht0
        | cons x xs => rfl
      unfold listLoop
      simp only [hReadBundleStart, hListCallback, ht0e, Bool.false_eq_true, if_false]
      rw [ih (some e) k (acc ++ [e.1])
        (by simpa using Nat.lt_of_succ_lt_succ hfuel)
        (fun u hu => hne u (List.mem_cons_of_mem _ hu))]
      simp

theorem foldl_or_any {α : Type} (g : α → Bool) :
    ∀ (l : List α) (b : Bool), l.foldl (fun acc e => acc || g e) b = (b || l.any g) := by
  intro l
  induction l with
  | nil => intro b; simp
  | cons x xs ih =>
      intro b
      simp only [List.foldl_cons, List.any_cons, ih, Bool.or_assoc]

theorem zip_map_fst {α β γ : Type} (g : α → γ) :
    ∀ (xs : List α) (os : List β),
      (xs.zip os).map (fun e => (g e.1, e.2)) = (xs.map g).zip os := by
  intro xs
  induction xs with
  | nil => intro os; simp
  | cons x xs ih =>
      intro os
      cases os with
      | nil => simp
      | cons o os => simp [ih]

theorem zip3_events {α β γ : Type} :
    ∀ (ts : List α) (ps : List β) (os : List γ),
      ts.length ≤ ps.length → os.length ≤ ts.length →
      ((ts.zip ps).zip os).map (fun e => (e.2, e.1.2)) = os.zip ps := by
  intro ts
  induction ts with
  | nil =>
      intro ps os _ hos
      simp only [List.length_nil, Nat.le_zero] at hos
      rw [List.length_eq_zero.mp hos]
      simp
  | cons t ts ih =>
      intro ps os hps hos
      cases ps with
      | nil => simp at hps
      | cons p ps =>
          cases os with
          | nil => simp
          | cons o os =>
              simp only [List.zip_cons_cons, List.map_cons]
              rw [ih ps os (by simpa using hps) (by simpa using hos)]

theorem map_snd_zip_take {α β : Type} :
    ∀ (l₁ : List α) (l₂ : List β), l₁.length ≤ l₂.length →
      (l₁.zip l₂).map Prod.snd = l₂.take l₁.length := by
  intro l₁
  induction l₁ with
  | nil => intro l₂ _; simp
  | cons x xs ih =>
      intro l₂ h
      cases l₂ with
      | nil => simp at h
      | cons y ys => simp [ih ys (by simpa using h)]

theorem zip_truncate {α β : Type} :
    ∀ (l₁ : List α) (l₂ : List β) (n : Nat), l₁.length ≤ n →
      l₁.zip (l₂.take n) = l₁.zip l₂ := by
  intro l₁
  induction l₁ with
  | nil => intro l₂ n _; simp
  | cons x xs ih =>
      intro l₂ n h
      cases l₂ with
      | nil => simp
      | cons y ys =>
          simp only [List.length_cons] at h
          obtain ⟨m, rfl⟩ : ∃ m, n = m + 1 := ⟨n - 1, by omega⟩
          simp only [List.take_succ_cons, List.zip_cons_cons]
          rw [ih ys m (by omega)]

theorem mkTextFile_length_ge (c : Bytes) :
    ∀ (l : List (Bytes × Bytes)), l.length ≤ (TextFileHandler.mkTextFile c l).length := by
  intro l
  induction l with
  | nil => simp
  | cons e ls ih =>
      rw [mkTextFile_cons]
      simp only [List.length_append, List.length_cons]
      have h1 : 1 ≤ (TextFileHandler.bundleBlock c e.1 e.2).length := by
        simp [TextFileHandler.bundleBlock, TextFileHandler.bundleStartString]
      omega

set_option maxHeartbeats 1000000 in
set_option maxRecDepth 40000 in
theorem createFileHandler_text_comment (ft : String) (fio : Bool) (c : Bytes)
    (h : CreateFileHandler ft fio = .ok (.text c)) : (10 : Nat) ∉ c := by
  unfold CreateFileHandler at h
  by_cases h1 : ft = "i"
  · rw [if_pos h1] at h; injection h with hk; injection hk with hc; subst hc; decide
  rw [if_neg h1] at h
  by_cases h2 : ft = "ii"
  · rw [if_pos h2] at h; injection h with hk; injection hk with hc; subst hc; decide
  rw [if_neg h2] at h
  by_cases h3 : ft = "cui"
  · rw [if_pos h3] at h; injection h with hk; injection hk with hc; subst hc; decide
  rw [if_neg h3] at h
  by_cases h4 : ft = "hipi"
  · rw [if_pos h4] at h; injection h with hk; injection hk with hc; subst hc; decide
  rw [if_neg h4] at h
  by_cases h5 : ft = "d"
  · rw [if_pos h5] at h; injection h with hk; injection hk with hc; subst hc; decide
  rw [if_neg h5] at h
  by_cases h6 : ft = "ll"
  · rw [if_pos h6] at h; injection h with hk; injection hk with hc; subst hc; decide
  rw [if_neg h6] at h
  by_cases h7 : ft = "f95"
  · rw [if_pos h7] at h; injection h with hk; injection hk with hc; subst hc; decide
  rw [if_neg h7] at h
  by_cases h8 : ft = "bc"
  · rw [if_pos h8] at h; injection h with hk; exact HandlerKind.noConfusion hk
  rw [if_neg h8] at h
  by_cases h9 : ft = "s"
  · rw [if_pos h9] at h; injection h with hk; injection hk with hc; subst hc; decide
  rw [if_neg h9] at h
  by_cases h10 : ft = "o"
  · rw [if_pos h10] at h
    cases fio
    · rw [if_neg (by simp)] at h; injection h with hk; exact HandlerKind.noConfusion hk
    · rw [if_pos rfl] at h; injection h with hk; exact HandlerKind.noConfusion hk
  rw [if_neg h10] at h
  by_cases h11 : ft = "a"
  · rw [if_pos h11] at h
    cases fio
    · rw [if_neg (by simp)] at h; injection h with hk; exact HandlerKind.noConfusion hk
    · rw [if_pos rfl] at h; injection h with hk; exact HandlerKind.noConfusion hk
  rw [if_neg h11] at h
  by_cases h12 : ft = "gch"
  · rw [if_pos h12] at h; injection h with hk; exact HandlerKind.noConfusion hk
  rw [if_neg h12] at h
  by_cases h13 : ft = "ast"
  · rw [if_pos h13] at h; injection h with hk; exact HandlerKind.noConfusion hk
  rw [if_neg h13] at h
  exact Res.noConfusion h

theorem unbundlePost_empty (cfg : Config) (fc : Bytes) (fh : Bool) (evs : Events)
    (h : fh = true ∨ cfg.hostInputIndex.isNone = true ∨ cfg.allowMissingBundles = true) :
    unbundlePost cfg fc [] fh evs = (evs, .ok ()) := by
  unfold unbundlePost
  rw [if_neg (by simp)]
  by_cases h2 : ([] : List (Bytes × Bytes)).length = cfg.targetNames.length
  · rw [if_pos h2]
    simp
  · rw [if_neg h2, if_neg (by rcases h with h | h | h <;> simp [h])]
    simp

theorem binTail_events (a : Nat) (ha : 0 < a) :
    ∀ (pairs : List (Bytes × Bytes)) (outs : List Bytes) (c : Nat) (f : Bytes),
      f.length = c →
      ((pairs.zip (BinaryFileHandler.offsetsFrom a c
            ((pairs.map Prod.snd).map List.length))).zip outs).map
          (fun e => (e.2,
            ((f ++ binTail a c (pairs.map Prod.snd)).drop e.1.2.1).take e.1.2.2))
        = outs.zip (pairs.map Prod.snd) := by
  intro pairs
  induction pairs with
  | nil => intro outs c f hf; simp
  | cons pr prs ih =>
      intro outs c f hf
      cases outs with
      | nil => simp
      | cons o os =>
          have hc : c ≤ alignTo c a := alignTo_le c a ha
          simp only [List.map_cons, BinaryFileHandler.offsetsFrom, List.zip_cons_cons,
            List.map_cons]
          have hfile : f ++ binTail a c (pr.2 :: prs.map Prod.snd)
              = (f ++ (List.replicate (alignTo c a - c) 0 ++ pr.2))
                ++ binTail a (alignTo c a + pr.2.length) (prs.map Prod.snd) := by
            simp [binTail, List.append_assoc]
          have hslice : ((f ++ binTail a c (pr.2 :: prs.map Prod.snd)).drop
              (alignTo c a)).take pr.2.length = pr.2 := by
            rw [show f ++ binTail a c (pr.2 :: prs.map Prod.snd)
                = (f ++ List.replicate (alignTo c a - c) 0)
                  ++ (pr.2 ++ binTail a (alignTo c a + pr.2.length) (prs.map Prod.snd))
              from by simp [binTail, List.append_assoc]]
            rw [List.drop_left' (by
              simp only [List.length_append, List.length_replicate, hf]; omega)]
            exact List.take_left pr.2 _
          have htail := ih os (alignTo c a + pr.2.length)
            (f ++ (List.replicate (alignTo c a - c) 0 ++ pr.2))
            (by simp only [List.length_append, List.length_replicate, hf]; omega)
          rw [show ((f ++ binTail a c (pr.2 :: prs.map Prod.snd)) : Bytes)
              = (f ++ (List.replicate (alignTo c a - c) 0 ++ pr.2))
                ++ binTail a (alignTo c a + pr.2.length) (prs.map Prod.snd) from hfile]
              at hslice ⊢
          rw [htail, hslice]

theorem nextSection_skip (pre : List (Bytes × Bytes))
    (hpre : ∀ s ∈ pre, s.1.take 24 ≠ magicStr) :
    ∀ rest, ObjectFileHandler.nextSection (pre ++ rest)
      = ObjectFileHandler.nextSection rest := by
  induction pre with
  | nil => intro rest; simp
  | cons s ss ih =>
      intro rest
      obtain ⟨nm, ct⟩ := s
      rw [List.cons_append]
      conv_lhs => rw [ObjectFileHandler.nextSection]
      rw [if_neg (hpre (nm, ct) (List.mem_cons_self _ _))]
      exact ih (fun u hu => hpre u (List.mem_cons_of_mem _ hu)) rest

theorem obj_list_loop (fc : Bytes) :
    ∀ (l : List (Bytes × Bytes)) (pre : List (Bytes × Bytes))
      (cur : Option (Bytes × Bytes)) (fuel : Nat) (acc : List Bytes),
      l.length < fuel →
      (∀ s ∈ pre, s.1.take 24 ≠ magicStr) →
      (∀ e ∈ l, e.1 ≠ []) →
      listLoop fc fuel (.obj (pre ++ l.map fun e => (magicStr ++ e.1, e.2)) cur) acc
        = .ok (acc ++ l.map Prod.fst) := by
  intro l
  induction l with
  | nil =>
      intro pre cur fuel acc hfuel hpre _
      obtain ⟨k, rfl⟩ : ∃ k, fuel = k + 1 := ⟨fuel - 1, by omega⟩
      unfold listLoop
      simp only [hReadBundleStart, List.map_nil, nextSection_skip pre hpre []]
      simp [ObjectFileHandler.nextSection]
  | cons e ls ih =>
      intro pre cur fuel acc hfuel hpre hne
      obtain ⟨k, rfl⟩ : ∃ k, fuel = k + 1 := ⟨fuel - 1, by omega⟩
      have ht0 := hne e (List.mem_cons_self _ _)
      have ht0e : e.1.isEmpty = false := by
        cases hcase : e.1 with
        | nil => exact absurd hcase ht0
        | cons x xs => rfl
      have hsec : ObjectFileHandler.nextSection
          (pre ++ (e :: ls).map fun u => (magicStr ++ u.1, u.2))
          = some (e.1, (magicStr ++ e.1, e.2), ls.map fun u => (magicStr ++ u.1, u.2)) := by
        rw [nextSection_skip pre hpre, List.map_cons]
        unfold ObjectFileHandler.nextSection
        rw [if_pos (by rw [show (24 : Nat) = magicStr.length from rfl, List.take_left])]
        rw [show (magicStr ++ e.1).drop 24 = e.1 from by
          rw [show (24 : Nat) = magicStr.length from rfl, List.drop_left]]
      unfold listLoop
      simp only [hReadBundleStart, hListCallback, hsec, ht0e, Bool.false_eq_true, if_false]
      have hrec := ih [] (some (magicStr ++ e.1, e.2)) k (acc ++ [e.1])
        (by simpa using Nat.lt_of_succ_lt_succ hfuel)
        (by intro s hs; simp at hs)
        (fun u hu => hne u (List.mem_cons_of_mem _ hu))
      rw [List.nil_append] at hrec
      rw [hrec]
      simp

/-- C8 (amended): listing the bundle IDs of the file produced by bundling
recovers exactly the target names, in input order, for each container kind
under its read-side conditions: text containers when no payload embeds the
end marker and no target embeds a newline; binary containers when the bundle
alignment is positive, every bundled payload is non-empty (a zero-byte
`WriteBundle` does not extend the file to its aligned offset, so the reader
rejects that record) and the file is below `2^64` bytes; object containers
when no host-object section name carries the magic prefix.  (The unqualified
original claim is refuted by `c8_counterexample`.) -/
theorem c8_list_bundle_ids :
    (∀ (cfg : Config) (inputs : List Bytes) (fio fio2 : Bool)
      (hostSecs objSecs : List (Bytes × Bytes)) (c : Bytes) (f : Bytes),
      CreateFileHandler cfg.filesType fio2 = .ok (.text c) →
      CreateFileHandler cfg.filesType fio = .ok (.text c) →
      BundleFiles cfg inputs fio hostSecs = .ok (.bytes f) →
      (∀ t ∈ cfg.targetNames, t ≠ [] ∧ (10 : Nat) ∉ t) →
      (∀ pr ∈ cfg.targetNames.zip inputs,
        markerClean (TextFileHandler.bundleEndString c) pr.2) →
      ListBundleIDsInFile cfg f fio2 objSecs = .ok cfg.targetNames) ∧
    (∀ (cfg : Config) (inputs : List Bytes) (fio fio2 : Bool)
      (hostSecs objSecs : List (Bytes × Bytes)) (f : Bytes),
      CreateFileHandler cfg.filesType fio2 = .ok .binary →
      CreateFileHandler cfg.filesType fio = .ok .binary →
      BundleFiles cfg inputs fio hostSecs = .ok (.bytes f) →
      0 < cfg.bundleAlignment →
      f.length < 2 ^ 64 →
      cfg.targetNames.Nodup →
      (∀ t ∈ cfg.targetNames, t ≠ []) →
      (∀ pr ∈ cfg.targetNames.zip inputs, pr.2 ≠ []) →
      ListBundleIDsInFile cfg f fio2 objSecs = .ok cfg.targetNames) ∧
    (∀ (cfg : Config) (inputs : List Bytes) (fio fio2 : Bool)
      (hostSecs secs : List (Bytes × Bytes)) (fc : Bytes),
      CreateFileHandler cfg.filesType fio2 = .ok .object →
      CreateFileHandler cfg.filesType fio = .ok .object →
      BundleFiles cfg inputs fio hostSecs = .ok (.object secs) →
      (∀ s ∈ hostSecs, s.1.take 24 ≠ magicStr) →
      (∀ t ∈ cfg.targetNames, t ≠ []) →
      ListBundleIDsInFile cfg fc fio2 secs = .ok cfg.targetNames) := by
  refine ⟨?_, ?_, ?_⟩
  · intro cfg inputs fio fio2 hostSecs objSecs c f hckL hckB hb hts hmc
    have hc10 : (10 : Nat) ∉ c := createFileHandler_text_comment _ _ _ hckL
    unfold BundleFiles at hb
    by_cases g1 : (!(cfg.hostInputIndex.isSome || cfg.allowNoHost)) = true
    · rw [if_pos g1] at hb; simp at hb
    rw [if_neg g1] at hb
    by_cases g2 : (if cfg.allowNoHost then 0 else cfg.hostInputIndex.getD 0) ≥ inputs.length
    · rw [if_pos g2] at hb; simp at hb
    rw [if_neg g2] at hb
    simp only [hckB] at hb
    by_cases g3 : inputs.length < cfg.targetNames.length
    · rw [if_pos g3] at hb; simp at hb
    rw [if_neg g3] at hb
    injection hb with hb1
    injection hb1 with hb2
    subst hb2
    have hlen : cfg.targetNames.length ≤ inputs.length := by omega
    unfold ListBundleIDsInFile
    simp only [hckL, initState]
    have hll := text_list_loop c hc10 (cfg.targetNames.zip inputs) []
      (2 * (TextFileHandler.mkTextFile c (cfg.targetNames.zip inputs)).length
        + objSecs.length + 8) []
      (by
        have hg := mkTextFile_length_ge c (cfg.targetNames.zip inputs)
        omega)
      (by
        intro e he
        obtain ⟨he1, he2⟩ := List.of_mem_zip he
        obtain ⟨hx, hy⟩ := hts e.1 he1
        exact ⟨hx, hy, hmc e he⟩)
    simp only [List.nil_append, List.length_nil] at hll
    rw [hll, List.map_fst_zip _ _ hlen]
  · intro cfg inputs fio fio2 hostSecs objSecs f hckL hckB hb ha hflen hnd hne hpe
    unfold BundleFiles at hb
    by_cases g1 : (!(cfg.hostInputIndex.isSome || cfg.allowNoHost)) = true
    · rw [if_pos g1] at hb; simp at hb
    rw [if_neg g1] at hb
    by_cases g2 : (if cfg.allowNoHost then 0 else cfg.hostInputIndex.getD 0) ≥ inputs.length
    · rw [if_pos g2] at hb; simp at hb
    rw [if_neg g2] at hb
    simp only [hckB] at hb
    by_cases g3 : inputs.length < cfg.targetNames.length
    · rw [if_pos g3] at hb; simp at hb
    rw [if_neg g3] at hb
    injection hb with hb1
    injection hb1 with hb2
    subst hb2
    have hlen : cfg.targetNames.length ≤ inputs.length := by omega
    have hkeys : (cfg.targetNames.zip inputs).map Prod.fst = cfg.targetNames :=
      List.map_fst_zip _ _ hlen
    have hnd2 : ((cfg.targetNames.zip inputs).map Prod.fst).Nodup := by
      rw [hkeys]; exact hnd
    have hRH := readHeader_mkBinaryFile (cfg.targetNames.zip inputs)
      cfg.bundleAlignment ha hflen hnd2 hpe
    have hst : initState .binary
        (BinaryFileHandler.mkBinaryFile (cfg.targetNames.zip inputs) cfg.bundleAlignment)
        objSecs
        = .ok (.bin false (recsOf (cfg.targetNames.zip inputs) cfg.bundleAlignment) none) := by
      unfold initState
      rw [hRH]
      simp
    have hrl : (recsOf (cfg.targetNames.zip inputs) cfg.bundleAlignment).length
        = (cfg.targetNames.zip inputs).length := by
      unfold recsOf
      rw [List.length_map, List.length_zip, BinaryFileHandler.bundleOffsets,
        offsetsFrom_length, List.length_map, Nat.min_self]
    unfold ListBundleIDsInFile
    simp only [hckL, hst]
    rw [bin_list_loop _ _ none _ []
      (by
        have hb1 := headerBaseSize_le_length (cfg.targetNames.zip inputs)
          cfg.bundleAlignment ha hpe
        have hb2 := sum_map_ge ((cfg.targetNames.zip inputs).map Prod.fst)
        unfold BinaryFileHandler.headerBaseSize at hb1
        have hzl : (cfg.targetNames.zip inputs).length ≤
            24 * (((cfg.targetNames.zip inputs).map Prod.fst).length) := by
          rw [List.length_map]; omega
        rw [List.length_map] at hb2
        omega)
      (by
        intro e he
        have hm : e.1 ∈ (recsOf (cfg.targetNames.zip inputs)
            cfg.bundleAlignment).map Prod.fst := List.mem_map_of_mem _ he
        rw [recsOf_keys, hkeys] at hm
        exact hne e.1 hm)]
    rw [recsOf_keys, hkeys]
    simp
  · intro cfg inputs fio fio2 hostSecs secs fc hckL hckB hb hhost hne
    unfold BundleFiles at hb
    by_cases g1 : (!(cfg.hostInputIndex.isSome || cfg.allowNoHost)) = true
    · rw [if_pos g1] at hb; simp at hb
    rw [if_neg g1] at hb
    by_cases g2 : (if cfg.allowNoHost then 0 else cfg.hostInputIndex.getD 0) ≥ inputs.length
    · rw [if_pos g2] at hb; simp at hb
    rw [if_neg g2] at hb
    simp only [hckB] at hb
    by_cases g3 : inputs.length < cfg.targetNames.length
    · rw [if_pos g3] at hb; simp at hb
    rw [if_neg g3] at hb
    by_cases g4 : cfg.hostInputIndex.isNone = true
    · rw [if_pos g4] at hb; simp at hb
    rw [if_neg g4] at hb
    injection hb with hb1
    injection hb1 with hb2
    subst hb2
    have hlen : cfg.targetNames.length ≤ inputs.length := by omega
    have hkeys : (cfg.targetNames.zip inputs).map Prod.fst = cfg.targetNames :=
      List.map_fst_zip _ _ hlen
    have hadded : ((cfg.targetNames.zip inputs).enum.map fun e =>
          ((e.2.1 : Bytes), if cfg.hostInputIndex = some e.1 then ([0] : Bytes) else e.2.2)).map
          (fun u => (magicStr ++ u.1, u.2))
        = (cfg.targetNames.zip inputs).enum.map fun e =>
            (magicStr ++ e.2.1, if cfg.hostInputIndex = some e.1 then [0] else e.2.2) := by
      rw [List.map_map]
      rfl
    have hlfst : (((cfg.targetNames.zip inputs).enum.map fun e =>
          ((e.2.1 : Bytes), if cfg.hostInputIndex = some e.1
            then ([0] : Bytes) else e.2.2)).map Prod.fst)
        = cfg.targetNames := by
      rw [List.map_map]
      rw [show (Prod.fst ∘ fun e : Nat × (Bytes × Bytes) =>
          ((e.2.1 : Bytes), if cfg.hostInputIndex = some e.1 then ([0] : Bytes) else e.2.2))
          = (Prod.fst ∘ Prod.snd) from rfl]
      rw [← List.map_map, List.enum_map_snd, hkeys]
    unfold ListBundleIDsInFile
    simp only [hckL, initState]
    have hrec := obj_list_loop fc
      ((cfg.targetNames.zip inputs).enum.map fun e =>
        ((e.2.1 : Bytes), if cfg.hostInputIndex = some e.1 then ([0] : Bytes) else e.2.2))
      hostSecs none
      (2 * fc.length
        + (hostSecs ++ (cfg.targetNames.zip inputs).enum.map fun e =>
            ((magicStr ++ e.2.1 : Bytes),
              if cfg.hostInputIndex = some e.1 then ([0] : Bytes) else e.2.2)).length
        + 8) []
      (by
        simp only [List.length_append, List.length_map, List.enum_length]
        omega)
      hhost
      (by
        intro u hu
        have hm : u.1 ∈ (((cfg.targetNames.zip inputs).enum.map fun e =>
            ((e.2.1 : Bytes), if cfg.hostInputIndex = some e.1
              then ([0] : Bytes) else e.2.2)).map Prod.fst) := List.mem_map_of_mem _ hu
        rw [hlfst] at hm
        exact hne u.1 hm)
    rw [hadded] at hrec
    rw [hrec, hlfst]
    simp

theorem any_fst_fst {α β γ : Type} (p : α → Bool) :
    ∀ (l : List ((α × β) × γ)),
      (l.any fun e => p e.1.1) = ((l.map Prod.fst).map Prod.fst).any p := by
  intro l
  induction l with
  | nil => rfl
  | cons x xs ih => simp only [List.any_cons, List.map_cons, ih]

theorem zip_map_left_events (g : Bytes) :
    ∀ (rs : List ((Bytes × Bytes) × Nat × Nat)) (outs : List Bytes),
      (((rs.map fun e => (e.1.1, e.2.2, e.2.1)).zip outs).map
        fun e => (e.2, (g.drop e.1.2.2).take e.1.2.1))
      = ((rs.zip outs).map fun e => (e.2, (g.drop e.1.2.1).take e.1.2.2)) := by
  intro rs
  induction rs with
  | nil => intro outs; simp
  | cons r rest ih =>
      intro outs
      cases outs with
      | nil => simp
      | cons o os => simp [ih]

/-- Witness for C8 (text container) at one target and one clean payload. -/
theorem c8_witness :
    ListBundleIDsInFile ⟨true, true, false, none, "ll", 1, [strBytes "T"], [strBytes "O"]⟩
        (TextFileHandler.mkTextFile (strBytes ";") [(strBytes "T", strBytes "x\n")])
        false []
      = .ok [strBytes "T"] :=
  c8_list_bundle_ids.1 ⟨true, true, false, none, "ll", 1, [strBytes "T"], [strBytes "O"]⟩
    [strBytes "x\n"] false false [] [] (strBytes ";")
    (TextFileHandler.mkTextFile (strBytes ";") [(strBytes "T", strBytes "x\n")])
    (by decide) (by decide) (by decide) (by decide) (by decide)

set_option maxRecDepth 200000 in
/-- C8 (counterexample): a payload embedding an end marker followed by a
fake start marker makes `list_bundle_ids` print an extra id `FAKE` that was
never a bundled target, refuting the unqualified claim. -/
theorem c8_counterexample :
    BundleFiles ⟨true, true, false, none, "ll", 1, [strBytes "T"], [strBytes "O"]⟩
        [strBytes "A\n; __CLANG_OFFLOAD_BUNDLE____END__ x\n\n; __CLANG_OFFLOAD_BUNDLE____START__ FAKE\nmore"]
        false []
      = .ok (.bytes (TextFileHandler.mkTextFile (strBytes ";")
          [(strBytes "T",
            strBytes "A\n; __CLANG_OFFLOAD_BUNDLE____END__ x\n\n; __CLANG_OFFLOAD_BUNDLE____START__ FAKE\nmore")])) ∧
    ListBundleIDsInFile ⟨true, true, false, none, "ll", 1, [strBytes "T"], [strBytes "O"]⟩
        (TextFileHandler.mkTextFile (strBytes ";")
          [(strBytes "T",
            strBytes "A\n; __CLANG_OFFLOAD_BUNDLE____END__ x\n\n; __CLANG_OFFLOAD_BUNDLE____START__ FAKE\nmore")])
        false []
      = .ok [strBytes "T", strBytes "FAKE"] :=
  ⟨by decide, by decide⟩

/-- C1 (amended): bundling pairwise-distinct-target pairs and unbundling the
produced container with the same targets writes exactly the bundled payload
to each target's output, for the text container (when no payload embeds the
end marker and no target embeds a newline) and the binary container (positive
alignment, every bundled payload non-empty — a zero-byte `WriteBundle` does
not extend the file to its aligned offset, so the reader would reject that
record — and file below `2^64` bytes) — provided additionally that a
host-kind target is among the requests, or the host-input sentinel is unset,
or missing bundles are allowed (else the missing-host-bundle check errors the
operation).  (The unqualified original claim is refuted by
`c1_counterexample`.) -/
theorem c1_round_trip :
    (∀ (cfg : Config) (inputs : List Bytes) (fio fio2 : Bool)
      (hostSecs objSecs : List (Bytes × Bytes)) (c : Bytes) (f : Bytes),
      CreateFileHandler cfg.filesType fio2 = .ok (.text c) →
      CreateFileHandler cfg.filesType fio = .ok (.text c) →
      BundleFiles cfg inputs fio hostSecs = .ok (.bytes f) →
      cfg.targetNames.Nodup →
      cfg.outputFileNames.length = cfg.targetNames.length →
      (∀ t ∈ cfg.targetNames, t ≠ [] ∧ (10 : Nat) ∉ t) →
      (∀ pr ∈ cfg.targetNames.zip inputs,
        markerClean (TextFileHandler.bundleEndString c) pr.2) →
      (cfg.hostInputIndex.isNone = true ∨ cfg.allowMissingBundles = true ∨
        (cfg.targetNames.any fun t => hasHostKind (mkOffloadTargetInfo t)) = true) →
      UnbundleFiles cfg f fio2 objSecs = (cfg.outputFileNames.zip inputs, .ok ())) ∧
    (∀ (cfg : Config) (inputs : List Bytes) (fio fio2 : Bool)
      (hostSecs objSecs : List (Bytes × Bytes)) (f : Bytes),
      CreateFileHandler cfg.filesType fio2 = .ok .binary →
      CreateFileHandler cfg.filesType fio = .ok .binary →
      BundleFiles cfg inputs fio hostSecs = .ok (.bytes f) →
      0 < cfg.bundleAlignment →
      f.length < 2 ^ 64 →
      cfg.targetNames.Nodup →
      cfg.outputFileNames.length = cfg.targetNames.length →
      (∀ t ∈ cfg.targetNames, t ≠ []) →
      (∀ pr ∈ cfg.targetNames.zip inputs, pr.2 ≠ []) →
      (cfg.hostInputIndex.isNone = true ∨ cfg.allowMissingBundles = true ∨
        (cfg.targetNames.any fun t => hasHostKind (mkOffloadTargetInfo t)) = true) →
      UnbundleFiles cfg f fio2 objSecs = (cfg.outputFileNames.zip inputs, .ok ())) := by
  refine ⟨?_, ?_⟩
  · intro cfg inputs fio fio2 hostSecs objSecs c f hckL hckB hb hnd houtlen hts hmc hhostok
    have hc10 : (10 : Nat) ∉ c := createFileHandler_text_comment _ _ _ hckL
    unfold BundleFiles at hb
    by_cases g1 : (!(cfg.hostInputIndex.isSome || cfg.allowNoHost)) = true
    · rw [if_pos g1] at hb; simp at hb
    rw [if_neg g1] at hb
    by_cases g2 : (if cfg.allowNoHost then 0 else cfg.hostInputIndex.getD 0) ≥ inputs.length
    · rw [if_pos g2] at hb; simp at hb
    rw [if_neg g2] at hb
    simp only [hckB] at hb
    by_cases g3 : inputs.length < cfg.targetNames.length
    · rw [if_pos g3] at hb; simp at hb
    rw [if_neg g3] at hb
    injection hb with hb1
    injection hb1 with hb2
    subst hb2
    have hlen : cfg.targetNames.length ≤ inputs.length := by omega
    have hzl : (cfg.targetNames.zip inputs).length = cfg.targetNames.length := by
      rw [List.length_zip]; omega
    have hzlo : ((cfg.targetNames.zip inputs).zip cfg.outputFileNames).length
        = cfg.targetNames.length := by
      rw [List.length_zip, hzl]; omega
    have hmapfst : (((cfg.targetNames.zip inputs).zip cfg.outputFileNames).map Prod.fst)
        = cfg.targetNames.zip inputs := List.map_fst_zip _ _ (by omega)
    have hwlform := zip_map_fst (Prod.fst (α := Bytes) (β := Bytes))
      (cfg.targetNames.zip inputs) cfg.outputFileNames
    rw [List.map_fst_zip _ _ hlen] at hwlform
    have hwl : buildSMap (cfg.targetNames.zip cfg.outputFileNames)
        = cfg.targetNames.zip cfg.outputFileNames := by
      refine buildSMap_nodup _ ?_
      rw [List.map_fst_zip _ _ (by omega)]
      exact hnd
    have hloop := text_unbundle_loop cfg.hipOpenmpCompatible c hc10
      ((cfg.targetNames.zip inputs).zip cfg.outputFileNames) []
      (2 * (TextFileHandler.mkTextFile c (cfg.targetNames.zip inputs)).length
        + cfg.targetNames.length + objSecs.length + 8) false []
      (by rw [hzlo]; omega)
      (by
        intro e he
        obtain ⟨hm1, _⟩ := List.of_mem_zip he
        obtain ⟨hma, _⟩ := List.of_mem_zip hm1
        obtain ⟨hx, hy⟩ := hts e.1.1 hma
        exact ⟨hx, hy, hmc e.1 hm1⟩)
    simp only [List.nil_append, List.length_nil] at hloop
    rw [hmapfst, hwlform,
      zip3_events cfg.targetNames inputs cfg.outputFileNames hlen (by omega),
      foldl_or_any, Bool.false_or] at hloop
    have hanyeq : (((cfg.targetNames.zip inputs).zip cfg.outputFileNames).any
        fun e => hasHostKind (mkOffloadTargetInfo e.1.1))
        = (cfg.targetNames.any fun t => hasHostKind (mkOffloadTargetInfo t)) := by
      rw [any_fst_fst (fun t => hasHostKind (mkOffloadTargetInfo t)), hmapfst,
        List.map_fst_zip _ _ hlen]
    rw [hanyeq] at hloop
    unfold UnbundleFiles
    simp only [hckL, initState, hwl]
    rw [hloop]
    exact unbundlePost_empty cfg _ _ _ (by
      rcases hhostok with h | h | h
      · exact Or.inr (Or.inl h)
      · exact Or.inr (Or.inr h)
      · exact Or.inl h)
  · intro cfg inputs fio fio2 hostSecs objSecs f hckL hckB hb ha hflen hnd houtlen hne
      hpe hhostok
    unfold BundleFiles at hb
    by_cases g1 : (!(cfg.hostInputIndex.isSome || cfg.allowNoHost)) = true
    · rw [if_pos g1] at hb; simp at hb
    rw [if_neg g1] at hb
    by_cases g2 : (if cfg.allowNoHost then 0 else cfg.hostInputIndex.getD 0) ≥ inputs.length
    · rw [if_pos g2] at hb; simp at hb
    rw [if_neg g2] at hb
    simp only [hckB] at hb
    by_cases g3 : inputs.length < cfg.targetNames.length
    · rw [if_pos g3] at hb; simp at hb
    rw [if_neg g3] at hb
    injection hb with hb1
    injection hb1 with hb2
    subst hb2
    have hlen : cfg.targetNames.length ≤ inputs.length := by omega
    have hzl : (cfg.targetNames.zip inputs).length = cfg.targetNames.length := by
      rw [List.length_zip]; omega
    have hkeys : (cfg.targetNames.zip inputs).map Prod.fst = cfg.targetNames :=
      List.map_fst_zip _ _ hlen
    have hnd2 : ((cfg.targetNames.zip inputs).map Prod.fst).Nodup := by
      rw [hkeys]; exact hnd
    have hRH := readHeader_mkBinaryFile (cfg.targetNames.zip inputs)
      cfg.bundleAlignment ha hflen hnd2 hpe
    have hst : initState .binary
        (BinaryFileHandler.mkBinaryFile (cfg.targetNames.zip inputs) cfg.bundleAlignment)
        objSecs
        = .ok (.bin false (recsOf (cfg.targetNames.zip inputs) cfg.bundleAlignment)
            none) := by
      unfold initState
      rw [hRH]
      simp
    have hrl : (recsOf (cfg.targetNames.zip inputs) cfg.bundleAlignment).length
        = (cfg.targetNames.zip inputs).length := by
      unfold recsOf
      rw [List.length_map, List.length_zip, BinaryFileHandler.bundleOffsets,
        offsetsFrom_length, List.length_map, Nat.min_self]
    have hwl : buildSMap (cfg.targetNames.zip cfg.outputFileNames)
        = cfg.targetNames.zip cfg.outputFileNames := by
      refine buildSMap_nodup _ ?_
      rw [List.map_fst_zip _ _ (by omega)]
      exact hnd
    have hlf : ((recsOf (cfg.targetNames.zip inputs) cfg.bundleAlignment).zip
          cfg.outputFileNames).map Prod.fst
        = recsOf (cfg.targetNames.zip inputs) cfg.bundleAlignment :=
      List.map_fst_zip _ _ (by rw [hrl, hzl]; omega)
    have hwlf := zip_map_fst (Prod.fst (α := Bytes) (β := Nat × Nat))
      (recsOf (cfg.targetNames.zip inputs) cfg.bundleAlignment) cfg.outputFileNames
    rw [recsOf_keys, hkeys] at hwlf
    have hss2 : ((cfg.targetNames.zip inputs).map Prod.snd).map List.length
        = (cfg.targetNames.zip inputs).map fun p => p.2.length := by
      simp [List.map_map, Function.comp_def]
    have hev : ((recsOf (cfg.targetNames.zip inputs) cfg.bundleAlignment).zip
          cfg.outputFileNames).map
          (fun e => (e.2,
            ((BinaryFileHandler.mkBinaryFile (cfg.targetNames.zip inputs)
                cfg.bundleAlignment).drop e.1.2.2).take e.1.2.1))
        = cfg.outputFileNames.zip inputs := by
      unfold recsOf
      rw [zip_map_left_events]
      rw [mkBinaryFile_form (cfg.targetNames.zip inputs) cfg.bundleAlignment ha hpe]
      rw [BinaryFileHandler.bundleOffsets, ← hss2]
      rw [binTail_events cfg.bundleAlignment ha (cfg.targetNames.zip inputs)
        cfg.outputFileNames _ _
        (headerBytes_length (cfg.targetNames.zip inputs) cfg.bundleAlignment)]
      rw [map_snd_zip_take _ _ hlen, zip_truncate _ _ _ (by omega)]
    have hloop := bin_unbundle_loop cfg.hipOpenmpCompatible
      (BinaryFileHandler.mkBinaryFile (cfg.targetNames.zip inputs) cfg.bundleAlignment)
      ((recsOf (cfg.targetNames.zip inputs) cfg.bundleAlignment).zip cfg.outputFileNames)
      none
      (2 * (BinaryFileHandler.mkBinaryFile (cfg.targetNames.zip inputs)
          cfg.bundleAlignment).length
        + cfg.targetNames.length + objSecs.length + 8) false []
      (by simp only [List.length_zip, hrl, hzl, houtlen, Nat.min_self]; omega)
      (by
        intro e he
        obtain ⟨he1, _⟩ := List.of_mem_zip he
        have hm : e.1.1 ∈ (recsOf (cfg.targetNames.zip inputs)
            cfg.bundleAlignment).map Prod.fst := List.mem_map_of_mem _ he1
        rw [recsOf_keys, hkeys] at hm
        exact hne e.1.1 hm)
    simp only [List.nil_append] at hloop
    rw [hlf, hwlf, hev, foldl_or_any, Bool.false_or] at hloop
    have hanyeq : (((recsOf (cfg.targetNames.zip inputs) cfg.bundleAlignment).zip
          cfg.outputFileNames).any
        fun e => hasHostKind (mkOffloadTargetInfo e.1.1))
        = (cfg.targetNames.any fun t => hasHostKind (mkOffloadTargetInfo t)) := by
      rw [any_fst_fst (fun t => hasHostKind (mkOffloadTargetInfo t)), hlf, recsOf_keys,
        hkeys]
    rw [hanyeq] at hloop
    unfold UnbundleFiles
    simp only [hckL, hst, hwl]
    rw [hloop]
    exact unbundlePost_empty cfg _ _ _ (by
      rcases hhostok with h | h | h
      · exact Or.inr (Or.inl h)
      · exact Or.inr (Or.inr h)
      · exact Or.inl h)

/-- Witness for C1 (text container) at one target and one clean payload. -/
theorem c1_witness :
    UnbundleFiles ⟨true, true, false, none, "ll", 1, [strBytes "U"], [strBytes "P"]⟩
        (TextFileHandler.mkTextFile (strBytes ";") [(strBytes "U", strBytes "y\n")])
        false []
      = ([(strBytes "P", strBytes "y\n")], .ok ()) := by
  rw [c1_round_trip.1 ⟨true, true, false, none, "ll", 1, [strBytes "U"], [strBytes "P"]⟩
    [strBytes "y\n"] false false [] [] (strBytes ";")
    (TextFileHandler.mkTextFile (strBytes ";") [(strBytes "U", strBytes "y\n")])
    (by decide) (by decide) (by decide) (by decide) (by decide) (by decide) (by decide)
    (by decide)]
  rfl

set_option maxRecDepth 200000 in
/-- C1 (counterexample): a payload embedding the text end marker round-trips
to a truncated output — unbundling the bundled file writes only the bytes
before the embedded marker, not the bundled payload, refuting the
unqualified claim. -/
theorem c1_counterexample :
    BundleFiles ⟨true, true, false, none, "ll", 1, [strBytes "T"], [strBytes "O"]⟩
        [strBytes "A\n; __CLANG_OFFLOAD_BUNDLE____END__ z\nB"] false []
      = .ok (.bytes (TextFileHandler.mkTextFile (strBytes ";")
          [(strBytes "T", strBytes "A\n; __CLANG_OFFLOAD_BUNDLE____END__ z\nB")])) ∧
    UnbundleFiles ⟨true, true, false, none, "ll", 1, [strBytes "T"], [strBytes "O"]⟩
        (TextFileHandler.mkTextFile (strBytes ";")
          [(strBytes "T", strBytes "A\n; __CLANG_OFFLOAD_BUNDLE____END__ z\nB")])
        false []
      = ([(strBytes "O", strBytes "A")], .ok ()) ∧
    strBytes "A" ≠ strBytes "A\n; __CLANG_OFFLOAD_BUNDLE____END__ z\nB" :=
  ⟨by decide, by decide, by decide⟩

end OffloadBundler
